import Mathlib

/-!
Verification development for the PriorisProject structural-analysis scripts.

The Python sources are shallowly embedded:
* `analyze_methods.py`  — header regex `amMatch`, brace loop `lineDelta` /
  `scanEnd`, main loop `amScan`, entry point `analyze_method_sizes`.
* `analyze_project.py`  — header regex `apMatch`, per-line state machine
  `apScanMethods`, `analyze_file` / `analyze_project` (file reads modelled as
  `Option String`; a `none` content models an unreadable file), and the
  impact-score accumulation of `generate_report` (`file_scores`).
* `analyze_dead_code.py` — regex scanners `importScan` / `classScan` /
  `funcScan`, the per-file accumulator `processDeadFile` / `runDead`, and the
  queries `find_unused_files`, `find_unused_classes`, `find_duplications`.

Python regexes are embedded as deterministic recursive matchers.  For
`analyze_methods.py` and `analyze_dead_code.py` every greedy quantifier is
followed by a continuation beginning with a character excluded from the
quantified class, so maximal munch coincides with Python's backtracking
semantics there.  The `method_pattern` of `analyze_project.py` does not have
this property (its `[\w<>?,\s]+` group overlaps the following `\s+`), so that
regex is embedded as a genuine backtracking engine in continuation-passing
style (`starB` / `plusB` / `plusCapB`): each greedy quantifier tries the
longest run first and retries the continuation at every shorter split, and
alternations are ordered `<|>` chains — exactly the trial order of Python's
engine.  Paths are modelled with POSIX separators.
-/

namespace Prioris

/-- The `{` character (written via its code point). -/
def obrace : Char := Char.ofNat 123

/-- The `}` character (written via its code point). -/
def cbrace : Char := Char.ofNat 125

/-- Python regex `\s` over ASCII input: space, tab, newline, CR, VT, FF. -/
def isSpaceCh (c : Char) : Bool :=
  c = ' ' || c = '\t' || c = '\n' || c = '\r' || c = '\x0b' || c = '\x0c'

/-- Python regex `\w` over ASCII input: letters, digits, underscore. -/
def isWordCh (c : Char) : Bool :=
  ('a' ≤ c && c ≤ 'z') || ('A' ≤ c && c ≤ 'Z') || ('0' ≤ c && c ≤ '9') || c = '_'

/-- Match a literal character sequence at the head of the input and return the
remainder. -/
def eatLit : List Char → List Char → Option (List Char)
  | [], l => some l
  | _ :: _, [] => none
  | c :: cs, x :: xs => if c = x then eatLit cs xs else none

/-- Greedy nonempty character-class match (`cls+` in a regex): the maximal
prefix satisfying `p`, which must be nonempty, together with the remainder. -/
def grab1 (p : Char → Bool) (l : List Char) : Option (List Char × List Char) :=
  match l.takeWhile p with
  | [] => none
  | t => some (t, l.dropWhile p)

/-- Bool test that `needle` is a prefix of `hay`. -/
def startsL (needle hay : List Char) : Bool := (eatLit needle hay).isSome

/-- Python's substring test `needle in hay`. -/
def containsSub : List Char → List Char → Bool
  | needle, hay =>
    startsL needle hay ||
      match hay with
      | [] => false
      | _ :: t => containsSub needle t

/-- Substring test on `String`s. -/
def containsSubS (needle hay : String) : Bool := containsSub needle.data hay.data

/-- Python `str.strip()` (whitespace from both ends). -/
def stripL (l : List Char) : List Char :=
  ((l.dropWhile isSpaceCh).reverse.dropWhile isSpaceCh).reverse

/-- Python `str.strip()` on `String`. -/
def pyStrip (s : String) : String := String.mk (stripL s.data)

/-- Python `s.startswith(p)`. -/
def startsWithS (s p : String) : Bool := startsL p.data s.data

/-- Python `s.endswith(p)`. -/
def endsWithS (s p : String) : Bool := startsL p.data.reverse s.data.reverse

/-- Python `content.split('\n')` (one more part than there are newlines;
empty parts preserved). -/
def splitNl : List Char → List String
  | [] => [""]
  | c :: cs =>
    if c = '\n' then "" :: splitNl cs
    else
      match splitNl cs with
      | h :: t => String.mk (c :: h.data) :: t
      | [] => [String.mk [c]]

/-- Stable insertion of `a` into a `le`-sorted list: `a` is placed before the
first element it compares `le` to, hence after any earlier equal element. -/
def insertLe (le : α → α → Bool) (a : α) : List α → List α
  | [] => [a]
  | y :: ys => if le a y then a :: y :: ys else y :: insertLe le a ys

/-- Python's stable `sorted(l, key=...)`, as a stable insertion sort (a
stable sort is unique as a function of `le`, so this agrees with Timsort). -/
def pySorted (le : α → α → Bool) (l : List α) : List α := l.foldr (insertLe le) []

/-! ### analyze_methods.py -/

/-- The `MethodInfo` dataclass of `analyze_methods.py`. -/
structure MethodInfo where
  file_path : String
  method_name : String
  start_line : Nat
  end_line : Nat
  line_count : Nat
deriving DecidableEq, Repr

/-- Tail of the method regex after the return type:
`\s+(\w+)\s*\([^)]*\)\s*(?:async)?\s*\{`.  Returns the captured method name. -/
def amTail (r : List Char) : Option String :=
  match r with
  | [] => none
  | c :: cs =>
    if isSpaceCh c then
      match grab1 isWordCh (cs.dropWhile isSpaceCh) with
      | some (nm, r2) =>
        match r2.dropWhile isSpaceCh with
        | c3 :: cs3 =>
          if c3 = '(' then
            match cs3.dropWhile (fun ch => !(ch = ')')) with
            | c4 :: cs4 =>
              if c4 = ')' then
                match
                  (eatLit "async".data (cs4.dropWhile isSpaceCh)).bind
                    (fun r5 =>
                      match r5.dropWhile isSpaceCh with
                      | c6 :: _ => if c6 = obrace then some () else none
                      | [] => none) <|>
                  (match cs4.dropWhile isSpaceCh with
                   | c6 :: _ => if c6 = obrace then some () else none
                   | [] => none)
                with
                | some _ => some (String.mk nm)
                | none => none
              else none
            | [] => none
          else none
        | [] => none
      | none => none
    else none

/-- Regex alternative `kw<[^>]+>` (the `Future<...>` / `Stream<...>` return
types). -/
def amGeneric (kw : String) (r : List Char) : Option (List Char) :=
  match eatLit (kw ++ "<").data r with
  | some r1 =>
    match grab1 (fun ch => !(ch = '>')) r1 with
    | some (_, r2) =>
      match r2 with
      | c :: cs => if c = '>' then some cs else none
      | [] => none
    | none => none
  | none => none

/-- Regex alternative `[A-Z]\w*` (a capitalized user-defined return type). -/
def amUpperType (r : List Char) : Option (List Char) :=
  match r with
  | c :: cs => if 'A' ≤ c && c ≤ 'Z' then some (cs.dropWhile isWordCh) else none
  | [] => none

/-- Literal keyword followed by `\s+` (used for `@override`, modifiers and in
`analyze_dead_code` patterns). -/
def eatKwSp (kw : String) (r : List Char) : Option (List Char) :=
  match eatLit kw.data r with
  | some r1 =>
    match r1 with
    | c :: cs => if isSpaceCh c then some (cs.dropWhile isSpaceCh) else none
    | [] => none
  | none => none

/-- The return-type alternation of `method_pattern` in `analyze_methods.py`,
each alternative run with the full continuation `amTail` (ordered exactly as
in the regex). -/
def amAfterMods (r : List Char) : Option String :=
  (amGeneric "Future" r).bind amTail <|> (amGeneric "Stream" r).bind amTail <|>
  (eatLit "Widget".data r).bind amTail <|> (eatLit "void".data r).bind amTail <|>
  (eatLit "bool".data r).bind amTail <|> (eatLit "int".data r).bind amTail <|>
  (eatLit "double".data r).bind amTail <|> (eatLit "String".data r).bind amTail <|>
  (eatLit "List".data r).bind amTail <|> (eatLit "Map".data r).bind amTail <|>
  (eatLit "Set".data r).bind amTail <|> (amUpperType r).bind amTail

/-- The optional modifier group `(?:static\s+|final\s+|const\s+)?`. -/
def amMods (r : List Char) : Option String :=
  (eatKwSp "static" r).bind amAfterMods <|> (eatKwSp "final" r).bind amAfterMods <|>
  (eatKwSp "const" r).bind amAfterMods <|> amAfterMods r

/-- `re.match` of `method_pattern` in `analyze_methods.py` against one line;
returns the captured method name. -/
def amMatch (line : String) : Option String :=
  let r := line.data.dropWhile isSpaceCh
  (eatKwSp "@override" r).bind amMods <|> amMods r

/-- The inner character loop of `analyze_method_sizes`: walk one line's
characters updating `brace_count`, stopping (`break`) as soon as the count
reaches zero after a `}`. -/
def lineDelta : List Char → Int → Int
  | [], d => d
  | c :: cs, d =>
    if c = obrace then lineDelta cs (d + 1)
    else if c = cbrace then (if d - 1 = 0 then 0 else lineDelta cs (d - 1))
    else lineDelta cs d

/-- The `while j < len(lines) and brace_count > 0` loop of
`analyze_method_sizes`; `j` is the 0-based index of the next line to process
(equally, the 1-based number of the last processed line). -/
def scanEnd : List String → Nat → Int → Nat
  | [], j, _ => j
  | l :: ls, j, d => if d > 0 then scanEnd ls (j + 1) (lineDelta l.data d) else j

/-- The end line computed for a method whose header is at 0-based index `i`:
brace depth starts at 1 and counting begins on the line after the header. -/
def methodEnd (lines : List String) (i : Nat) : Nat :=
  scanEnd (lines.drop (i + 1)) (i + 1) 1

theorem scanEnd_ge : ∀ (ls : List String) (j : Nat) (d : Int), j ≤ scanEnd ls j d := by
  intro ls
  induction ls with
  | nil => intro j d; simp [scanEnd]
  | cons l ls ih =>
    intro j d
    simp only [scanEnd]
    split
    · exact Nat.le_trans (Nat.le_succ j) (ih (j + 1) (lineDelta l.data d))
    · exact Nat.le_refl j

theorem methodEnd_ge (lines : List String) (i : Nat) : i + 1 ≤ methodEnd lines i :=
  scanEnd_ge _ _ _

/-- The outer `while i < len(lines)` loop of `analyze_method_sizes`:
on a header match at 0-based index `i`, the method spans 1-based lines
`i+1 .. methodEnd lines i`, it is reported iff its line count exceeds 50, and
the search resumes at 0-based index `methodEnd lines i` (Python's `i = j`).
The loop advances `i` by at least one per iteration, so a structural fuel of
`lines.length + 1` (supplied by `amScan`) never runs out. -/
def amScanF (file_path : String) (lines : List String) : Nat → Nat → List MethodInfo
  | _, 0 => []
  | i, fuel + 1 =>
    if h : i < lines.length then
      match amMatch lines[i] with
      | some nm =>
        let e := methodEnd lines i
        let cnt := e - (i + 1) + 1
        (if cnt > 50 then [⟨file_path, nm, i + 1, e, cnt⟩] else []) ++
          amScanF file_path lines e fuel
      | none => amScanF file_path lines (i + 1) fuel
    else []

/-- The scan of `analyze_method_sizes` started at line index 0. -/
def amScan (file_path : String) (lines : List String) : List MethodInfo :=
  amScanF file_path lines 0 (lines.length + 1)

/-- `analyze_method_sizes` of `analyze_methods.py`.  The file read is modelled
by an `Option`: `none` is an unreadable file, for which the `except` branch
returns the empty method list. -/
def analyze_method_sizes (file_path : String) (linesOpt : Option (List String)) :
    List MethodInfo :=
  match linesOpt with
  | none => []
  | some lines => amScan file_path lines

/-! ### analyze_project.py -/

/-- One record of `violations['methods_over_50']` in `analyze_project.py`. -/
structure PViol where
  file : String
  method : String
  lines : Nat
  start_line : Nat
  end_line : Nat
deriving DecidableEq, Repr

/-- One record of `violations['files_over_500']` in `analyze_project.py`. -/
structure FViol where
  file : String
  lines : Nat
  excess : Nat
deriving DecidableEq, Repr

/-- The mutable fields of `ProjectAnalyzer` touched by `analyze_file`. -/
structure PState where
  total_files : Nat
  total_lines : Nat
  files_over_500 : List FViol
  methods_over_50 : List PViol
deriving DecidableEq, Repr

/-- `line.count('{') - line.count('}')` (each brace character counts,
whatever its lexical context). -/
def braceCountDelta (line : String) : Int :=
  ((line.data.filter (fun c => c = obrace)).length : Int) -
    ((line.data.filter (fun c => c = cbrace)).length : Int)

/-- The character class `[\w<>?,\s]` of `method_pattern` in
`analyze_project.py`. -/
def isAClsCh (c : Char) : Bool :=
  isWordCh c || c = '<' || c = '>' || c = '?' || c = ',' || isSpaceCh c

/-- Greedy `cls*` with backtracking: consume as many `cls` characters as
possible first, then retry the continuation at every shorter split, in the
order Python's engine tries them. -/
def starB (cls : Char → Bool) : List Char → (List Char → Option String) → Option String
  | [], k => k []
  | c :: t, k => if cls c then starB cls t k <|> k (c :: t) else k (c :: t)

/-- Greedy `cls+` with backtracking. -/
def plusB (cls : Char → Bool) (l : List Char) (k : List Char → Option String) :
    Option String :=
  match l with
  | [] => none
  | c :: t => if cls c then starB cls t k else none

/-- Greedy captured `(cls*)` with backtracking; the continuation receives the
reversed captured run and the remainder. -/
def starCapB (cls : Char → Bool) :
    List Char → List Char → (List Char → List Char → Option String) → Option String
  | [], acc, k => k acc []
  | c :: t, acc, k =>
    if cls c then starCapB cls t (c :: acc) k <|> k acc (c :: t) else k acc (c :: t)

/-- Greedy captured `(cls+)` with backtracking. -/
def plusCapB (cls : Char → Bool) (l : List Char)
    (k : List Char → List Char → Option String) : Option String :=
  match l with
  | [] => none
  | c :: t => if cls c then starCapB cls t [c] k else none

/-- Final `\{` of `method_pattern`: `re.match` needs no end anchor, so a
head `{` completes the match with the captured name. -/
def apBrace (nm : String) (l : List Char) : Option String :=
  match l with
  | c :: _ => if c = obrace then some nm else none
  | [] => none

/-- `\s*\{` — the tail after the optional `async` / `sync*` group. -/
def apAfterOpt (nm : String) (l : List Char) : Option String :=
  starB isSpaceCh l (apBrace nm)

/-- `(?:async|sync\*)?\s*\{`: the optional group is greedy, so the engine
tries `async`, then `sync*`, then the empty alternative. -/
def apOptAsync (nm : String) (l : List Char) : Option String :=
  (match eatLit "async".data l with
   | some r => apAfterOpt nm r
   | none => none) <|>
  (match eatLit "sync*".data l with
   | some r => apAfterOpt nm r
   | none => none) <|>
  apAfterOpt nm l

/-- `\([^)]*\)\s*(?:async|sync\*)?\s*\{` — the parameter list and tail. -/
def apParams (nm : String) (l : List Char) : Option String :=
  match l with
  | c :: t =>
    if c = '(' then
      starB (fun ch => !(ch = ')')) t (fun r =>
        match r with
        | c2 :: t2 =>
          if c2 = ')' then starB isSpaceCh t2 (apOptAsync nm) else none
        | [] => none)
    else none
  | [] => none

/-- `(\w+)\s*\(...` — the captured method name and everything after it. -/
def apName (l : List Char) : Option String :=
  plusCapB isWordCh l (fun acc r =>
    starB isSpaceCh r (apParams (String.mk acc.reverse)))

/-- `(?:[\w<>?,\s]+)\s+(\w+)...` — the return-type group (which itself may
consume whitespace), the mandatory whitespace, and the rest. -/
def apGroup1 (l : List Char) : Option String :=
  plusB isAClsCh l (fun r => plusB isSpaceCh r apName)

/-- `re.match` of `method_pattern` in `analyze_project.py` against one line
(`^\s*(?:[\w<>?,\s]+)\s+(\w+)\s*\([^)]*\)\s*(?:async|sync\*)?\s*\{`);
returns the captured method name of the match Python's backtracking engine
finds first, or `none` when the line does not match. -/
def apMatch (line : String) : Option String :=
  starB isSpaceCh line.data apGroup1

/-- The per-line state machine of `ProjectAnalyzer.analyze_methods`:
`i` is the 1-based number of the head line, `inM` / `nm` / `mstart` / `bc`
are `in_method` / `method_name` / `method_start` / `brace_count`.  Comment
and blank lines are skipped entirely (they do not even update the brace
count). -/
def apScanMethods (file : String) : List String → Nat → Bool → String → Nat → Int → List PViol
  | [], _, _, _, _, _ => []
  | line :: rest, i, inM, nm, mstart, bc =>
    if pyStrip line = "" || startsWithS (pyStrip line) "//" || startsWithS (pyStrip line) "/*" then
      apScanMethods file rest (i + 1) inM nm mstart bc
    else
      match apMatch line, inM with
      | some nm2, false =>
        apScanMethods file rest (i + 1) true nm2 i (braceCountDelta line)
      | _, true =>
        if bc + braceCountDelta line = 0 then
          (if i - mstart + 1 > 50 then [⟨file, nm, i - mstart + 1, mstart, i⟩] else []) ++
            apScanMethods file rest (i + 1) false "" 0 0
        else apScanMethods file rest (i + 1) true nm mstart (bc + braceCountDelta line)
      | none, false => apScanMethods file rest (i + 1) false nm mstart bc

/-- `ProjectAnalyzer.analyze_methods` (the violations it appends for one
file). -/
def analyze_methods_ap (file : String) (lines : List String) : List PViol :=
  apScanMethods file lines 1 false "" 0 0

/-- POSIX `os.path.basename`: the suffix after the last `/`. -/
def basename (p : String) : String :=
  String.mk ((p.data.reverse.takeWhile (fun c => !(c = '/'))).reverse)

/-- `ProjectAnalyzer.is_excluded`, taking the already-relative POSIX path. -/
def is_excluded (relpath : String) : Bool :=
  let filename := basename relpath
  (endsWithS filename ".g.dart" || endsWithS filename ".freezed.dart" ||
   endsWithS filename ".mocks.dart" || endsWithS filename "_config.dart") ||
  (startsWithS relpath "lib/l10n/" || startsWithS relpath "lib/generated/" ||
   startsWithS relpath "lib/.dart_tool/" || startsWithS relpath "test/.dart_tool/" ||
   startsWithS relpath "test/domain/services/persistence/unified_persistence_service_test.dart") ||
  (containsSubS "/regression/" relpath && endsWithS filename ".dart")

/-- The state update of `analyze_file` for one successfully read file:
bump the counters, append an oversized-file record when the line count
exceeds 500, and append this file's oversized-method records. -/
def pFileUpdate (st : PState) (relpath : String) (lines : List String) : PState :=
  { total_files := st.total_files + 1
    total_lines := st.total_lines + lines.length
    files_over_500 :=
      st.files_over_500 ++
        (if lines.length > 500 then [⟨relpath, lines.length, lines.length - 500⟩] else [])
    methods_over_50 := st.methods_over_50 ++ analyze_methods_ap relpath lines }

/-- `ProjectAnalyzer.analyze_file`.  The file read is modelled by an
`Option`; `analyze_file` has no `try`/`except`, so an unreadable file
raises, modelled by `Except.error`. -/
def analyze_file (st : PState) (relpath : String) (contentOpt : Option String) :
    Except Unit PState :=
  if is_excluded relpath then .ok st
  else
    match contentOpt with
    | none => .error ()
    | some content => .ok (pFileUpdate st relpath (splitNl content.data))

/-- The initial `ProjectAnalyzer` state. -/
def initPState : PState := ⟨0, 0, [], []⟩

/-- The file loop of `ProjectAnalyzer.analyze_project`: an exception escaping
`analyze_file` propagates and aborts the remaining iterations. -/
def analyze_project_go (st : PState) : List (String × Option String) → Except Unit PState
  | [] => .ok st
  | f :: rest =>
    match analyze_file st f.1 f.2 with
    | .ok st2 => analyze_project_go st2 rest
    | .error e => .error e

/-- `ProjectAnalyzer.analyze_project` over an already-enumerated list of
(relative path, read result) pairs. -/
def analyze_project (files : List (String × Option String)) : Except Unit PState :=
  analyze_project_go initPState files

/-- Add `v` to the score of key `k` in the per-file score dictionary
(`defaultdict` semantics: a missing key starts from 0). -/
def bumpScore (k : String) (v : Nat) : List (String × Nat) → List (String × Nat)
  | [] => [(k, v)]
  | (k2, s) :: rest => if k2 = k then (k2, s + v) :: rest else (k2, s) :: bumpScore k v rest

/-- The impact-score accumulation of `ProjectAnalyzer.generate_report`
(section 3 of the report): `excess // 100 * 10` per oversized-file record,
then `(lines - 50) // 10` per oversized-method record. -/
def file_scores (fv : List FViol) (mv : List PViol) : List (String × Nat) :=
  let d := fv.foldl (fun d v => bumpScore v.file (v.excess / 100 * 10) d) []
  mv.foldl (fun d v => bumpScore v.file ((v.lines - 50) / 10) d) d

/-- Look a file's score up in the score dictionary (0 if absent). -/
def scoreOf (d : List (String × Nat)) (f : String) : Nat :=
  ((d.find? (fun p => p.1 = f)).map Prod.snd).getD 0

/-! ### analyze_dead_code.py -/

theorem length_dropWhile_le (p : Char → Bool) (l : List Char) :
    (l.dropWhile p).length ≤ l.length := by
  induction l with
  | nil => simp [List.dropWhile]
  | cons c cs ih =>
    simp only [List.dropWhile]
    split
    · exact Nat.le_trans ih (Nat.le_succ _)
    · exact Nat.le_refl _

theorem eatLit_eq_append (p : List Char) :
    ∀ l r, eatLit p l = some r → l = p ++ r := by
  induction p with
  | nil => intro l r h; simp [eatLit] at h; simp [h]
  | cons c cs ih =>
    intro l r h
    cases l with
    | nil => simp [eatLit] at h
    | cons x xs =>
      simp only [eatLit] at h
      split at h
      next heq => simp [← heq, ih xs r h]
      · exact absurd h (by simp)

theorem eatLit_length (p : List Char) (l r : List Char) (h : eatLit p l = some r) :
    r.length + p.length = l.length := by
  have := eatLit_eq_append p l r h
  simp [this]
  omega

theorem grab1_eq_append {p : Char → Bool} {l t r : List Char}
    (h : grab1 p l = some (t, r)) :
    l = t ++ r ∧ t ≠ [] ∧ t = l.takeWhile p ∧ r = l.dropWhile p := by
  unfold grab1 at h
  split at h
  · exact absurd h (by simp)
  next hne =>
    simp only [Option.some.injEq, Prod.mk.injEq] at h
    obtain ⟨rfl, rfl⟩ := h
    exact ⟨(List.takeWhile_append_dropWhile p l).symm, hne, rfl, rfl⟩

theorem grab1_length_lt {p : Char → Bool} {l t r : List Char}
    (h : grab1 p l = some (t, r)) : r.length < l.length := by
  obtain ⟨hl, ht, -, -⟩ := grab1_eq_append h
  have h1 : l.length = t.length + r.length := by simp [hl]
  have h2 : 0 < t.length := List.length_pos.mpr ht
  omega

/-- Match one character `c` at the head of the input. -/
def eatCh (c : Char) : List Char → Option (List Char)
  | [] => none
  | x :: xs => if x = c then some xs else none

theorem eatCh_some {c : Char} {l r : List Char} (h : eatCh c l = some r) : l = c :: r := by
  cases l with
  | nil => simp [eatCh] at h
  | cons x xs =>
    simp only [eatCh] at h
    split at h
    next heq => cases h; simp [heq]
    · exact absurd h (by simp)

theorem eatCh_length_lt {c : Char} {l r : List Char} (h : eatCh c l = some r) :
    r.length < l.length := by
  simp [eatCh_some h]

/-- A quote character (the regex class `['\"]`). -/
def quoteCh (c : Char) : Bool := c = '\'' || c = '"'

/-- Match one character of the class `p`. -/
def eatClsCh (p : Char → Bool) : List Char → Option (List Char)
  | [] => none
  | x :: xs => if p x then some xs else none

theorem eatClsCh_some {p : Char → Bool} {l r : List Char} (h : eatClsCh p l = some r) :
    ∃ c, l = c :: r ∧ p c := by
  cases l with
  | nil => simp [eatClsCh] at h
  | cons x xs =>
    simp only [eatClsCh] at h
    split at h
    next hp => cases h; exact ⟨x, rfl, hp⟩
    · exact absurd h (by simp)

theorem eatClsCh_length_lt {p : Char → Bool} {l r : List Char} (h : eatClsCh p l = some r) :
    r.length < l.length := by
  obtain ⟨c, rfl, -⟩ := eatClsCh_some h
  simp

/-- `\s+` followed by a literal (the `\s+extends` style alternatives of
`class_pattern`). -/
def spThen (kw : String) (r : List Char) : Option (List Char) :=
  (grab1 isSpaceCh r).bind fun p => eatLit kw.data p.2

/-- The continuation group of `class_pattern`:
`(?:\s+extends|\s+implements|\s+with|\s*\{)`, alternatives in regex order. -/
def classCont (r : List Char) : Option (List Char) :=
  spThen "extends" r <|> spThen "implements" r <|> spThen "with" r <|>
    eatCh obrace (r.dropWhile isSpaceCh)

/-- A match of `class_pattern` (`class\s+(\w+)(?:...)`) anchored at the head
of `l`; returns the captured class name and the remainder after the match. -/
def classAt (l : List Char) : Option (String × List Char) :=
  (eatLit "class".data l).bind fun r0 =>
    (grab1 isSpaceCh r0).bind fun p1 =>
      (grab1 isWordCh p1.2).bind fun p2 =>
        (classCont p2.2).map fun rest => (String.mk p2.1, rest)

theorem spThen_length_le {kw : String} {r rest : List Char}
    (h : spThen kw r = some rest) : rest.length ≤ r.length := by
  unfold spThen at h
  obtain ⟨⟨t, r1⟩, h1, h2⟩ := Option.bind_eq_some.mp h
  have ha := grab1_length_lt h1
  have hb := eatLit_length kw.data r1 rest h2
  omega

theorem classCont_length_le {r rest : List Char}
    (h : classCont r = some rest) : rest.length ≤ r.length := by
  unfold classCont at h
  rcases (Option.orElse_eq_some _ _ _).mp h with h1 | ⟨-, h1⟩
  · exact spThen_length_le h1
  rcases (Option.orElse_eq_some _ _ _).mp h1 with h2 | ⟨-, h2⟩
  · exact spThen_length_le h2
  rcases (Option.orElse_eq_some _ _ _).mp h2 with h3 | ⟨-, h3⟩
  · exact spThen_length_le h3
  · have ha := eatCh_length_lt h3
    have hb := length_dropWhile_le isSpaceCh r
    omega

theorem classAt_length_lt {l : List Char} {nm : String} {rest : List Char}
    (h : classAt l = some (nm, rest)) : rest.length < l.length := by
  unfold classAt at h
  obtain ⟨r0, h0, h1⟩ := Option.bind_eq_some.mp h
  obtain ⟨p1, h2, h3⟩ := Option.bind_eq_some.mp h1
  obtain ⟨p2, h4, h5⟩ := Option.bind_eq_some.mp h3
  obtain ⟨rest0, h6, hval⟩ := Option.map_eq_some'.mp h5
  simp only [Prod.mk.injEq] at hval
  obtain ⟨-, rfl⟩ := hval
  have ha := eatLit_length "class".data l r0 h0
  have hlen : ("class".data).length = 5 := rfl
  have hb := grab1_length_lt h2
  have hc := grab1_length_lt h4
  have hd := classCont_length_le h6
  omega

/-- `re.finditer` of `class_pattern` over a file's text: captured class names
in order; a failed position advances by one character, a successful match
resumes after its end.  Every step shortens the text (`classAt_length_lt`),
so a structural fuel of `l.length + 1` (supplied by `classScan`) never runs
out; on an exhausted text there is no position left to try (no pattern here
matches the empty text, so this agrees with the runtime behaviour). -/
def classScanF : Nat → List Char → List String
  | 0, _ => []
  | _ + 1, [] => []
  | fuel + 1, c :: t =>
    match classAt (c :: t) with
    | some (nm, rest) => nm :: classScanF fuel rest
    | none => classScanF fuel t

/-- `re.finditer` of `class_pattern` over a file's text. -/
def classScan (l : List Char) : List String := classScanF (l.length + 1) l

/-- A match of the `import`/`export` pattern
(`kw\s+['\"]([^'\"]+)['\"]`) anchored at the head of `l`. -/
def impExpAt (kw : String) (l : List Char) : Option (String × List Char) :=
  (eatLit kw.data l).bind fun r0 =>
    (grab1 isSpaceCh r0).bind fun p1 =>
      (eatClsCh quoteCh p1.2).bind fun r1 =>
        (grab1 (fun ch => !quoteCh ch) r1).bind fun p2 =>
          (eatClsCh quoteCh p2.2).map fun rest => (String.mk p2.1, rest)

theorem impExpAt_length_lt {kw : String} {l : List Char} {s : String} {rest : List Char}
    (h : impExpAt kw l = some (s, rest)) : rest.length < l.length := by
  unfold impExpAt at h
  obtain ⟨r0, h0, h1⟩ := Option.bind_eq_some.mp h
  obtain ⟨p1, h2, h3⟩ := Option.bind_eq_some.mp h1
  obtain ⟨r2, h4, h5⟩ := Option.bind_eq_some.mp h3
  obtain ⟨p2, h6, h7⟩ := Option.bind_eq_some.mp h5
  obtain ⟨rest0, h8, hval⟩ := Option.map_eq_some'.mp h7
  simp only [Prod.mk.injEq] at hval
  obtain ⟨-, rfl⟩ := hval
  have ha := eatLit_length kw.data l r0 h0
  have hb := grab1_length_lt h2
  have hc := eatClsCh_length_lt h4
  have hd := grab1_length_lt h6
  have he := eatClsCh_length_lt h8
  omega

/-- `re.finditer` of the import/export pattern over a file's text (fuel
variant; every step shortens the text by `impExpAt_length_lt`). -/
def impExpScanF (kw : String) : Nat → List Char → List String
  | 0, _ => []
  | _ + 1, [] => []
  | fuel + 1, c :: t =>
    match impExpAt kw (c :: t) with
    | some (s, rest) => s :: impExpScanF kw fuel rest
    | none => impExpScanF kw fuel t

/-- `re.finditer` of the import pattern over a file's text. -/
def importScan (l : List Char) : List String := impExpScanF "import" (l.length + 1) l

/-- `re.finditer` of the export pattern over a file's text. -/
def exportScan (l : List Char) : List String := impExpScanF "export" (l.length + 1) l

/-- One keyword alternative of `func_pattern`
(`kw\s+\w+\s*\([^)]*\)`), returning the remainder after the match. -/
def funcAtKw (kw : String) (l : List Char) : Option (List Char) :=
  (eatLit kw.data l).bind fun r0 =>
    (grab1 isSpaceCh r0).bind fun p1 =>
      (grab1 isWordCh p1.2).bind fun p2 =>
        (eatCh '(' (p2.2.dropWhile isSpaceCh)).bind fun r3 =>
          eatCh ')' (r3.dropWhile (fun ch => !(ch = ')')))

theorem funcAtKw_length_lt {kw : String} {l rest : List Char}
    (h : funcAtKw kw l = some rest) : rest.length < l.length := by
  unfold funcAtKw at h
  obtain ⟨r0, h0, h1⟩ := Option.bind_eq_some.mp h
  obtain ⟨p1, h2, h3⟩ := Option.bind_eq_some.mp h1
  obtain ⟨p2, h4, h5⟩ := Option.bind_eq_some.mp h3
  obtain ⟨r3, h6, h7⟩ := Option.bind_eq_some.mp h5
  have ha := eatLit_length kw.data l r0 h0
  have hb := grab1_length_lt h2
  have hc := grab1_length_lt h4
  have hd := eatCh_length_lt h6
  have he := eatCh_length_lt h7
  have hf := length_dropWhile_le isSpaceCh p2.2
  have hg := length_dropWhile_le (fun ch => !(ch = ')')) r3
  omega

/-- A match of `func_pattern` anchored at the head of `l`: the keyword
alternation in regex order; group(1) is the whole match, so the captured text
is the consumed prefix. -/
def funcAt (l : List Char) : Option (String × List Char) :=
  (funcAtKw "Future" l <|> funcAtKw "void" l <|> funcAtKw "int" l <|>
      funcAtKw "String" l <|> funcAtKw "bool" l <|> funcAtKw "List" l <|>
      funcAtKw "Map" l <|> funcAtKw "dynamic" l).map
    fun rest => (String.mk (l.take (l.length - rest.length)), rest)

theorem funcAt_length_lt {l : List Char} {s : String} {rest : List Char}
    (h : funcAt l = some (s, rest)) : rest.length < l.length := by
  unfold funcAt at h
  obtain ⟨rest0, h0, hval⟩ := Option.map_eq_some'.mp h
  simp only [Prod.mk.injEq] at hval
  obtain ⟨-, rfl⟩ := hval
  rcases (Option.orElse_eq_some _ _ _).mp h0 with h1 | ⟨-, h1⟩
  · exact funcAtKw_length_lt h1
  rcases (Option.orElse_eq_some _ _ _).mp h1 with h2 | ⟨-, h2⟩
  · exact funcAtKw_length_lt h2
  rcases (Option.orElse_eq_some _ _ _).mp h2 with h3 | ⟨-, h3⟩
  · exact funcAtKw_length_lt h3
  rcases (Option.orElse_eq_some _ _ _).mp h3 with h4 | ⟨-, h4⟩
  · exact funcAtKw_length_lt h4
  rcases (Option.orElse_eq_some _ _ _).mp h4 with h5 | ⟨-, h5⟩
  · exact funcAtKw_length_lt h5
  rcases (Option.orElse_eq_some _ _ _).mp h5 with h6 | ⟨-, h6⟩
  · exact funcAtKw_length_lt h6
  rcases (Option.orElse_eq_some _ _ _).mp h6 with h7 | ⟨-, h7⟩
  · exact funcAtKw_length_lt h7
  · exact funcAtKw_length_lt h7

/-- Run tracker for `re.sub(r'\s+', ' ', s)`: when `inRun` is true the head
of the current whitespace run has already emitted its single `' '`. -/
def wsCollapseAux : List Char → Bool → List Char
  | [], _ => []
  | c :: cs, inRun =>
    if isSpaceCh c then
      if inRun then wsCollapseAux cs true else ' ' :: wsCollapseAux cs true
    else c :: wsCollapseAux cs false

/-- `re.sub(r'\s+', ' ', s)`: collapse each whitespace run to one space. -/
def wsCollapse (l : List Char) : List Char := wsCollapseAux l false

/-- Signature normalization in `find_duplications`:
`match.group(1).strip()` then whitespace collapse. -/
def normalizeSig (s : String) : String := String.mk (wsCollapse (stripL s.data))

/-- `re.finditer` of `func_pattern` over a file's text, each match
normalized (fuel variant; every step shortens the text by
`funcAt_length_lt`). -/
def funcScanF : Nat → List Char → List String
  | 0, _ => []
  | _ + 1, [] => []
  | fuel + 1, c :: t =>
    match funcAt (c :: t) with
    | some (s, rest) => normalizeSig s :: funcScanF fuel rest
    | none => funcScanF fuel t

/-- `re.finditer` of `func_pattern` over a file's text, each match
normalized. -/
def funcScan (l : List Char) : List String := funcScanF (l.length + 1) l

/-- One candidate position of `re.search(r'\b' + name + r'\b', content)`
(`name` is a `\w+` capture, so the boundaries require a non-word character,
or the text edge, on each side). -/
def wbHere (nm : List Char) (prevWord : Bool) (l : List Char) : Bool :=
  !prevWord &&
    (match eatLit nm l with
     | some rest =>
       match rest with
       | [] => true
       | c :: _ => !isWordCh c
     | none => false)

/-- The position scan of `re.search(r'\b' + name + r'\b', content)` (the
final position, after the last character, is also tried). -/
def wbSearchAux (nm : List Char) : Bool → List Char → Bool
  | pw, [] => wbHere nm pw []
  | pw, c :: t => wbHere nm pw (c :: t) || wbSearchAux nm (isWordCh c) t

/-- `re.search(r'\b' + class_name + r'\b', content)` as a Bool. -/
def wbSearch (nm : String) (content : String) : Bool :=
  wbSearchAux nm.data false content.data

/-- `defaultdict(list)`-style `d[k].append(v)` on an association list
(insertion order preserved, keys unique). -/
def dictAppend (k : String) (v : String) :
    List (String × List String) → List (String × List String)
  | [] => [(k, [v])]
  | (k2, vs) :: rest =>
    if k2 = k then (k2, vs ++ [v]) :: rest else (k2, vs) :: dictAppend k v rest

/-- `defaultdict(set)`-style `d[k].add(v)`. -/
def dictAdd (k : String) (v : String) :
    List (String × List String) → List (String × List String)
  | [] => [(k, [v])]
  | (k2, vs) :: rest =>
    if k2 = k then (k2, if vs.contains v then vs else vs ++ [v]) :: rest
    else (k2, vs) :: dictAdd k v rest

/-- `defaultdict(int)`-style `d[k] += 1`. -/
def bumpUsage (k : String) : List (String × Nat) → List (String × Nat)
  | [] => [(k, 1)]
  | (k2, n) :: rest =>
    if k2 = k then (k2, n + 1) :: rest else (k2, n) :: bumpUsage k rest

/-- `d.get(k, 0)` on the usage dictionary. -/
def lookupNat (d : List (String × Nat)) (k : String) : Nat :=
  ((d.find? (fun p => p.1 = k)).map Prod.snd).getD 0

/-- The fields of `DeadCodeAnalyzer` written by `analyze_imports_exports`. -/
structure DState where
  imports : List (String × List String)
  exports : List (String × List String)
  class_definitions : List (String × List String)
  class_usages : List (String × Nat)
deriving DecidableEq, Repr

/-- The per-file body of `analyze_imports_exports`: record imports (minus
`package:flutter`/`dart:` ones) and exports, then class definitions, then
bump the usage counter of every class name known *so far* that has a
word-boundary occurrence in this file's text.  The whole body is inside
`try`/`except: pass`, so an unreadable file (`none`) leaves the state
unchanged. -/
def processDeadFile (st : DState) (path : String) (contentOpt : Option String) : DState :=
  match contentOpt with
  | none => st
  | some content =>
    let cs := content.data
    let imps := (importScan cs).filter
      (fun s => !(startsWithS s "package:flutter") && !(startsWithS s "dart:"))
    let imports2 := imps.foldl (fun d s => dictAdd path s d) st.imports
    let exports2 := (exportScan cs).foldl (fun d s => dictAdd path s d) st.exports
    let defs2 := (classScan cs).foldl (fun d nm => dictAppend nm path d) st.class_definitions
    let usages2 := defs2.foldl
      (fun u p => if wbSearch p.1 content then bumpUsage p.1 u else u) st.class_usages
    ⟨imports2, exports2, defs2, usages2⟩

/-- The empty `DeadCodeAnalyzer` state. -/
def initDState : DState := ⟨[], [], [], []⟩

/-- `analyze_imports_exports` over `lib_files + test_files`, each given with
its read result. -/
def runDead (files : List (String × Option String)) : DState :=
  files.foldl (fun st f => processDeadFile st f.1 f.2) initDState

/-- All recorded import strings (the union `all_imports`; only membership is
ever queried, so the set is modelled as a flat list). -/
def allImportsOf (d : List (String × List String)) : List String :=
  d.flatMap Prod.snd

/-- `p.replace('\\', '/')`. -/
def slashPath (p : String) : String :=
  String.mk (p.data.map (fun c => if c = '\\' then '/' else c))

/-- `DeadCodeAnalyzer.find_unused_files` over the `lib_files` list and the
recorded imports. -/
def find_unused_files (lib_files : List String) (imports : List (String × List String)) :
    List String :=
  lib_files.filter (fun p =>
    !(containsSubS ".g.dart" p) && !(containsSubS ".mocks.dart" p) &&
      !(containsSubS "export.dart" p) && !(endsWithS p "main.dart") &&
      !((allImportsOf imports).any (fun imp =>
          containsSubS (basename p) imp || containsSubS (slashPath p) imp)))

/-- One record returned by `find_unused_classes`. -/
structure UnusedClass where
  name : String
  defined_in : List String
  usage_count : Nat
deriving DecidableEq, Repr

/-- `DeadCodeAnalyzer.find_unused_classes`: classes whose usage count is at
most 1, sorted ascending by usage count (Python's stable `sorted`). -/
def find_unused_classes (st : DState) : List UnusedClass :=
  pySorted (fun a b => decide (a.usage_count ≤ b.usage_count))
    (st.class_definitions.filterMap (fun p =>
      let u := lookupNat st.class_usages p.1
      if u ≤ 1 then some ⟨p.1, p.2, u⟩ else none))


/-- One record returned by `find_duplications`. -/
structure DupCluster where
  signature : String
  files : List String
  count : Nat
deriving DecidableEq, Repr

/-- The `signatures` dictionary of `find_duplications`: one file entry is
appended per regex match (so a file contributes once per occurrence). -/
def sigFold (files : List (String × Option String)) : List (String × List String) :=
  files.foldl
    (fun d f =>
      match f.2 with
      | none => d
      | some content => (funcScan content.data).foldl (fun d sig => dictAppend sig f.1 d) d)
    []

/-- `list(set(...))`: CPython iterates a string set in an unspecified order;
modelled as first-occurrence order (no claim below depends on this order). -/
def pySetList (l : List String) : List String :=
  l.foldl (fun acc x => if acc.contains x then acc else acc ++ [x]) []

/-- The `duplicates` list of `find_duplications` before sorting/truncation:
clusters whose occurrence list is longer than 2 and whose signature is longer
than 30 characters. -/
def reportableClusters (files : List (String × Option String)) : List DupCluster :=
  (sigFold files).filterMap (fun p =>
    if p.2.length > 2 && p.1.length > 30 then some ⟨p.1, pySetList p.2, p.2.length⟩
    else none)

/-- `DeadCodeAnalyzer.find_duplications`: the reportable clusters sorted
descending by `count` (stable) and truncated to the first 30 inside the
function itself. -/
def find_duplications (files : List (String × Option String)) : List DupCluster :=
  (pySorted (fun a b => decide (b.count ≤ a.count)) (reportableClusters files)).take 30

/-- The number of `func_pattern` matches normalizing to `sig` across the
corpus (occurrences, with multiplicity, not distinct files). -/
def countOccs (sig : String) (files : List (String × Option String)) : Nat :=
  (files.map (fun f =>
      match f.2 with
      | none => 0
      | some c => ((funcScan c.data).filter (fun s => decide (s = sig))).length)).sum

/-- All import strings recorded over a corpus (definition independent of the
`runDead` fold, for the dead-file characterization). -/
def recordedImports (files : List (String × Option String)) : List String :=
  files.flatMap (fun f =>
    match f.2 with
    | none => []
    | some c =>
      (importScan c.data).filter
        (fun s => !(startsWithS s "package:flutter") && !(startsWithS s "dart:")))


/-! ## Verified properties -/

/-! ### Brace counting and method ends (C1, C10) -/

theorem lineDelta_filter (l : List Char) :
    ∀ d : Int,
      lineDelta l d =
        lineDelta (l.filter (fun c => decide (c = obrace) || decide (c = cbrace))) d := by
  induction l with
  | nil => intro d; rfl
  | cons c cs ih =>
    intro d
    by_cases h1 : c = obrace
    · rw [List.filter_cons_of_pos (by simp [h1])]
      simp only [lineDelta, if_pos h1]
      exact ih (d + 1)
    · by_cases h2 : c = cbrace
      · rw [List.filter_cons_of_pos (by simp [h2])]
        simp only [lineDelta, if_neg h1, if_pos h2]
        split
        · rfl
        · exact ih (d - 1)
      · rw [List.filter_cons_of_neg (by simp [h1, h2])]
        simp only [lineDelta, if_neg h1, if_neg h2]
        exact ih d

theorem lineDelta_nonneg (l : List Char) : ∀ d : Int, 0 < d → 0 ≤ lineDelta l d := by
  induction l with
  | nil => intro d hd; simpa [lineDelta] using le_of_lt hd
  | cons c cs ih =>
    intro d hd
    simp only [lineDelta]
    split
    · exact ih _ (by omega)
    · split
      · split
        next h3 => omega
        next h3 => exact ih _ (by omega)
      · exact ih _ hd

theorem scanEnd_nonpos (ls : List String) (j : Nat) (d : Int) (hd : ¬ 0 < d) :
    scanEnd ls j d = j := by
  cases ls with
  | nil => rfl
  | cons l ls => simp only [scanEnd, if_neg hd]

theorem scanEnd_eof :
    ∀ (rest : List String) (j : Nat) (d : Int), 0 < d →
      (∀ n, 0 < n → n ≤ rest.length →
          ((rest.take n).foldl (fun a l => lineDelta l.data a) d) ≠ 0) →
      scanEnd rest j d = j + rest.length := by
  intro rest
  induction rest with
  | nil => intro j d _ _; simp [scanEnd]
  | cons l ls ih =>
    intro j d hd hno
    have h1 : lineDelta l.data d ≠ 0 := by
      have := hno 1 (by omega) (by simp)
      simpa using this
    have h3 : 0 < lineDelta l.data d :=
      lt_of_le_of_ne (lineDelta_nonneg l.data d hd) (Ne.symm h1)
    simp only [scanEnd, if_pos hd]
    rw [ih (j + 1) _ h3 ?_]
    · simp only [List.length_cons]; omega
    · intro n hn hlen
      have := hno (n + 1) (by omega) (by simpa using Nat.succ_le_succ hlen)
      simpa [List.take_succ_cons, List.foldl_cons] using this

theorem scanEnd_hit :
    ∀ (rest : List String) (j : Nat) (d : Int) (n : Nat), 0 < d → 0 < n →
      n ≤ rest.length →
      ((rest.take n).foldl (fun a l => lineDelta l.data a) d) = 0 →
      (∀ m, 0 < m → m < n →
          ((rest.take m).foldl (fun a l => lineDelta l.data a) d) ≠ 0) →
      scanEnd rest j d = j + n := by
  intro rest
  induction rest with
  | nil =>
    intro j d n _ hn hlen _ _
    simp only [List.length_nil] at hlen
    omega
  | cons l ls ih =>
    intro j d n hd hn hlen hzero hmin
    simp only [scanEnd, if_pos hd]
    obtain ⟨n1, rfl⟩ : ∃ n1, n = n1 + 1 := ⟨n - 1, by omega⟩
    cases n1 with
    | zero =>
      have hz : lineDelta l.data d = 0 := by simpa using hzero
      rw [scanEnd_nonpos ls (j + 1) (lineDelta l.data d) (by omega)]
    | succ n2 =>
      have h1 : lineDelta l.data d ≠ 0 := by
        have := hmin 1 (by omega) (by omega)
        simpa using this
      have h3 : 0 < lineDelta l.data d :=
        lt_of_le_of_ne (lineDelta_nonneg l.data d hd) (Ne.symm h1)
      rw [ih (j + 1) _ (n2 + 1) h3 (by omega)
          (by simp only [List.length_cons] at hlen; omega) ?_ ?_]
      · omega
      · simpa [List.take_succ_cons, List.foldl_cons] using hzero
      · intro m hm hlt
        have := hmin (m + 1) (by omega) (by omega)
        simpa [List.take_succ_cons, List.foldl_cons] using this

/-- Brace depth after processing the first `n` lines that follow a method
header, starting from the header's depth 1. -/
def depthAfter (rest : List String) (n : Nat) : Int :=
  (rest.take n).foldl (fun a l => lineDelta l.data a) 1

/-- A method body whose string literal contains `{`: the literal brace keeps
the depth positive, so the span runs to line 53. -/
def cxLinesA : List String :=
  ["void foo() \x7b", "  var s = \"\x7b\";", "\x7d"] ++ List.replicate 49 "x;" ++ ["\x7d"]

/-- The same file with the literal's brace replaced by `x`: the span closes
on line 3 and no method exceeds 50 lines. -/
def cxLinesB : List String :=
  ["void foo() \x7b", "  var s = \"x\";", "\x7d"] ++ List.replicate 49 "x;" ++ ["\x7d"]

/-- C1, counterexample.  The claim says a method body containing `{` only
inside a string literal is closed on the same line as it would be if the
literal were absent.  On `cxLinesA` (literal `"{"`) the span computed by
`analyze_method_sizes` ends on line 53 and is reported as a >50-line method,
while on the literal-free `cxLinesB` it ends on line 3 and nothing is
reported: the brace inside the string literal does contribute to nesting
depth. -/
theorem c1_string_brace_counterexample :
    methodEnd cxLinesA 0 = 53 ∧ methodEnd cxLinesB 0 = 3 ∧
    analyze_method_sizes "file.dart" (some cxLinesA) =
      [⟨"file.dart", "foo", 1, 53, 53⟩] ∧
    analyze_method_sizes "file.dart" (some cxLinesB) = [] := by decide

/-- C1, amended.  `analyze_method_sizes` counts every `{`/`}` character
toward nesting depth regardless of lexical context: the per-line depth
update is a function of the line's brace characters alone (first conjunct),
and a method body containing `"{"` only inside a string literal closes later
than it would if the literal were absent (remaining conjuncts, on the
concrete pair `cxLinesA`/`cxLinesB`). -/
theorem c1_braces_counted_in_strings :
    (∀ (l : List Char) (d : Int),
        lineDelta l d =
          lineDelta (l.filter (fun c => decide (c = obrace) || decide (c = cbrace))) d) ∧
    methodEnd cxLinesA 0 = 53 ∧ methodEnd cxLinesB 0 = 3 ∧
    analyze_method_sizes "file.dart" (some cxLinesA) =
      [⟨"file.dart", "foo", 1, 53, 53⟩] ∧
    analyze_method_sizes "file.dart" (some cxLinesB) = [] :=
  ⟨lineDelta_filter, by decide, by decide, by decide, by decide⟩

/-- C10.  In `analyze_method_sizes`, brace depth starts at 1 for the header
and counting begins on the line after the header, so the computed end line
(1) depends only on the lines after the header — a closing brace on the
header line itself is never counted; (2) is strictly later than the header
line whenever any later line exists; (3) is the end of file when the depth
never returns to 0; and (4) is exactly the first later line whose braces
bring the depth to 0. -/
theorem c10_method_end_characterization :
    ∀ (lines : List String) (i : Nat) (li : String) (nm : String),
      lines.get? i = some li → amMatch li = some nm →
      (∀ lines2 : List String,
          lines.drop (i + 1) = lines2.drop (i + 1) →
          methodEnd lines i = methodEnd lines2 i) ∧
      (lines.drop (i + 1) ≠ [] → i + 1 < methodEnd lines i) ∧
      ((∀ n, 0 < n → n ≤ (lines.drop (i + 1)).length →
          depthAfter (lines.drop (i + 1)) n ≠ 0) →
        methodEnd lines i = lines.length) ∧
      (∀ n, 0 < n → n ≤ (lines.drop (i + 1)).length →
        depthAfter (lines.drop (i + 1)) n = 0 →
        (∀ m, 0 < m → m < n → depthAfter (lines.drop (i + 1)) m ≠ 0) →
        methodEnd lines i = i + 1 + n) := by
  intro lines i li nm hget _hmatch
  have hi : i < lines.length := by
    by_contra hc
    rw [List.get?_eq_none.mpr (by omega)] at hget
    exact absurd hget (by simp)
  refine ⟨?_, ?_, ?_, ?_⟩
  · intro lines2 hdrop
    unfold methodEnd
    rw [hdrop]
  · intro hne
    obtain ⟨l0, ls0, hcons⟩ : ∃ a as, lines.drop (i + 1) = a :: as := by
      cases hd : lines.drop (i + 1) with
      | nil => exact absurd hd hne
      | cons a as => exact ⟨a, as, rfl⟩
    unfold methodEnd
    rw [hcons]
    simp only [scanEnd, if_pos (by omega : (0 : Int) < 1)]
    have := scanEnd_ge ls0 (i + 1 + 1) (lineDelta l0.data 1)
    omega
  · intro hno
    unfold methodEnd
    rw [scanEnd_eof (lines.drop (i + 1)) (i + 1) 1 one_pos ?_]
    · rw [List.length_drop]; omega
    · intro n hn hlen
      exact hno n hn hlen
  · intro n hn hlen hz hmin
    unfold methodEnd
    rw [scanEnd_hit (lines.drop (i + 1)) (i + 1) 1 n one_pos hn hlen hz hmin]

/-- C10, witness: for `["int f() { }", "}"]` the header matches on line 1
with its body braces balanced on the header line itself, yet the span ends
on line 2 (the first later line whose `}` brings the depth to 0). -/
theorem c10_method_end_characterization_witness :
    methodEnd ["int f() \x7b \x7d", "\x7d"] 0 = 0 + 1 + 1 :=
  (c10_method_end_characterization ["int f() \x7b \x7d", "\x7d"] 0
        "int f() \x7b \x7d" "f" (by decide) (by decide)).2.2.2
    1 (by decide) (by decide) (by decide) (by intro m hm hlt; omega)


/-! ### Span invariants (C2) -/

theorem amScanF_facts (fp : String) (lines : List String) :
    ∀ (fuel i : Nat),
      (∀ m ∈ amScanF fp lines i fuel,
          i + 1 ≤ m.start_line ∧ m.start_line ≤ m.end_line) ∧
      (amScanF fp lines i fuel).Pairwise (fun a b => a.end_line < b.start_line) := by
  intro fuel
  induction fuel with
  | zero => intro i; exact ⟨by simp [amScanF], by simp [amScanF]⟩
  | succ fuel ih =>
    intro i
    by_cases h : i < lines.length
    · cases hm : amMatch lines[i] with
      | some nm =>
        simp only [amScanF, dif_pos h, hm]
        obtain ⟨ih1, ih2⟩ := ih (methodEnd lines i)
        have he : i + 1 ≤ methodEnd lines i := methodEnd_ge lines i
        constructor
        · intro m hmem
          rcases List.mem_append.mp hmem with hA | hB
          · have hmv : m = (⟨fp, nm, i + 1, methodEnd lines i,
                methodEnd lines i - (i + 1) + 1⟩ : MethodInfo) := by
              by_cases hc : methodEnd lines i - (i + 1) + 1 > 50
              · simpa [hc] using hA
              · simp [hc] at hA
            subst hmv
            exact ⟨le_refl _, he⟩
          · obtain ⟨hb1, hb2⟩ := ih1 m hB
            exact ⟨by omega, hb2⟩
        · rw [List.pairwise_append]
          refine ⟨?_, ih2, ?_⟩
          · by_cases hc : methodEnd lines i - (i + 1) + 1 > 50 <;> simp [hc]
          · intro a ha b hb
            have hbs := (ih1 b hb).1
            have hav : a = (⟨fp, nm, i + 1, methodEnd lines i,
                methodEnd lines i - (i + 1) + 1⟩ : MethodInfo) := by
              by_cases hc : methodEnd lines i - (i + 1) + 1 > 50
              · simpa [hc] using ha
              · simp [hc] at ha
            subst hav
            show methodEnd lines i < b.start_line
            omega
      | none =>
        simp only [amScanF, dif_pos h, hm]
        obtain ⟨ih1, ih2⟩ := ih (i + 1)
        refine ⟨fun m hmem => ?_, ih2⟩
        obtain ⟨h1, h2⟩ := ih1 m hmem
        exact ⟨by omega, h2⟩
    · exact ⟨by simp [amScanF, dif_neg h], by simp [amScanF, dif_neg h]⟩

theorem apScanMethods_facts (file : String) :
    ∀ (ls : List String) (i : Nat) (inM : Bool) (nm : String) (mstart : Nat) (bc : Int),
      (inM = true → mstart ≤ i) →
      (∀ v ∈ apScanMethods file ls i inM nm mstart bc,
          (if inM then mstart else i) ≤ v.start_line ∧ v.start_line ≤ v.end_line ∧
          50 < v.lines ∧ v.lines = v.end_line - v.start_line + 1) ∧
      (apScanMethods file ls i inM nm mstart bc).Pairwise
        (fun a b => a.end_line < b.start_line) := by
  intro ls
  induction ls with
  | nil => intro i inM nm mstart bc _; exact ⟨by simp [apScanMethods], by simp [apScanMethods]⟩
  | cons line rest ih =>
    intro i inM nm mstart bc hst
    have closeFacts : ∀ (nm0 : String) (mstart0 : Nat) (bc0 : Int), mstart0 ≤ i →
        (∀ v ∈ (if bc0 + braceCountDelta line = 0 then
              (if i - mstart0 + 1 > 50 then
                  [(⟨file, nm0, i - mstart0 + 1, mstart0, i⟩ : PViol)]
                else []) ++ apScanMethods file rest (i + 1) false "" 0 0
            else apScanMethods file rest (i + 1) true nm0 mstart0
              (bc0 + braceCountDelta line)),
            mstart0 ≤ v.start_line ∧ v.start_line ≤ v.end_line ∧ 50 < v.lines ∧
              v.lines = v.end_line - v.start_line + 1) ∧
        (if bc0 + braceCountDelta line = 0 then
              (if i - mstart0 + 1 > 50 then
                  [(⟨file, nm0, i - mstart0 + 1, mstart0, i⟩ : PViol)]
                else []) ++ apScanMethods file rest (i + 1) false "" 0 0
            else apScanMethods file rest (i + 1) true nm0 mstart0
              (bc0 + braceCountDelta line)).Pairwise
          (fun a b => a.end_line < b.start_line) := by
      intro nm0 mstart0 bc0 hmi
      by_cases hbz : bc0 + braceCountDelta line = 0
      · simp only [if_pos hbz]
        obtain ⟨ih1, ih2⟩ := ih (i + 1) false "" 0 0 (by simp)
        constructor
        · intro v hv
          rcases List.mem_append.mp hv with hA | hB
          · have hgt : i - mstart0 + 1 > 50 := by
              by_cases hc : i - mstart0 + 1 > 50
              · exact hc
              · simp [hc] at hA
            have hv2 : v = (⟨file, nm0, i - mstart0 + 1, mstart0, i⟩ : PViol) := by
              simpa [hgt] using hA
            subst hv2
            exact ⟨le_refl _, hmi, hgt, rfl⟩
          · obtain ⟨h1, h2, h3, h4⟩ := ih1 v hB
            have h5 : i + 1 ≤ v.start_line := by simpa using h1
            exact ⟨by omega, h2, h3, h4⟩
        · rw [List.pairwise_append]
          refine ⟨?_, ih2, ?_⟩
          · by_cases hc : i - mstart0 + 1 > 50 <;> simp [hc]
          · intro a ha b hb
            have hbs : i + 1 ≤ b.start_line := by simpa using (ih1 b hb).1
            have hgt : i - mstart0 + 1 > 50 := by
              by_cases hc : i - mstart0 + 1 > 50
              · exact hc
              · simp [hc] at ha
            have ha2 : a = (⟨file, nm0, i - mstart0 + 1, mstart0, i⟩ : PViol) := by
              simpa [hgt] using ha
            subst ha2
            show i < b.start_line
            omega
      · simp only [if_neg hbz]
        obtain ⟨ih1, ih2⟩ :=
          ih (i + 1) true nm0 mstart0 (bc0 + braceCountDelta line) (fun _ => by omega)
        refine ⟨fun v hv => ?_, ih2⟩
        obtain ⟨h1, h2, h3, h4⟩ := ih1 v hv
        exact ⟨by simpa using h1, h2, h3, h4⟩
    simp only [apScanMethods]
    split
    · obtain ⟨ih1, ih2⟩ := ih (i + 1) inM nm mstart bc (fun hh => le_trans (hst hh) (Nat.le_succ i))
      refine ⟨fun v hv => ?_, ih2⟩
      obtain ⟨h1, h2, h3, h4⟩ := ih1 v hv
      refine ⟨?_, h2, h3, h4⟩
      cases inM with
      | true => simpa using h1
      | false =>
        have h5 : i + 1 ≤ v.start_line := by simpa using h1
        simp only [Bool.false_eq_true, if_false]
        omega
    · cases happ : apMatch line with
      | some nm2 =>
        cases inM with
        | false =>
          simp only [happ]
          obtain ⟨ih1, ih2⟩ := ih (i + 1) true nm2 i (braceCountDelta line) (fun _ => Nat.le_succ i)
          refine ⟨fun v hv => ?_, ih2⟩
          obtain ⟨h1, h2, h3, h4⟩ := ih1 v hv
          have h5 : i ≤ v.start_line := by simpa using h1
          refine ⟨?_, h2, h3, h4⟩
          simp only [Bool.false_eq_true, if_false]
          exact h5
        | true =>
          simp only [happ]
          have hcf := closeFacts nm mstart bc (hst rfl)
          refine ⟨fun v hv => ?_, hcf.2⟩
          obtain ⟨h1, h2, h3, h4⟩ := hcf.1 v hv
          exact ⟨by simpa using h1, h2, h3, h4⟩
      | none =>
        cases inM with
        | false =>
          simp only [happ]
          obtain ⟨ih1, ih2⟩ := ih (i + 1) false nm mstart bc (by simp)
          refine ⟨fun v hv => ?_, ih2⟩
          obtain ⟨h1, h2, h3, h4⟩ := ih1 v hv
          have h5 : i + 1 ≤ v.start_line := by simpa using h1
          refine ⟨?_, h2, h3, h4⟩
          simp only [Bool.false_eq_true, if_false]
          omega
        | true =>
          simp only [happ]
          have hcf := closeFacts nm mstart bc (hst rfl)
          refine ⟨fun v hv => ?_, hcf.2⟩
          obtain ⟨h1, h2, h3, h4⟩ := hcf.1 v hv
          exact ⟨by simpa using h1, h2, h3, h4⟩

/-- Lines of a 75-line method (header, 73 filler lines, closing brace). -/
def m75lines : List String := ["void f() \x7b"] ++ List.replicate 73 "x;" ++ ["\x7d"]

/-- C2.  Every method span detected by `analyze_method_sizes` and every
oversized-method record of `analyze_project` satisfies end line ≥ start
line, and the spans reported for one file are pairwise disjoint and listed
in increasing start-line order (each span ends strictly before the next
begins, because the search resumes after the closed span). -/
theorem c2_span_invariants :
    ∀ (fp : String) (linesOpt : Option (List String)) (file : String) (lines : List String),
      ((∀ m ∈ analyze_method_sizes fp linesOpt, m.start_line ≤ m.end_line) ∧
        (analyze_method_sizes fp linesOpt).Pairwise
          (fun a b => a.end_line < b.start_line)) ∧
      ((∀ v ∈ analyze_methods_ap file lines, v.start_line ≤ v.end_line) ∧
        (analyze_methods_ap file lines).Pairwise
          (fun a b => a.end_line < b.start_line)) := by
  intro fp linesOpt file lines
  constructor
  · cases linesOpt with
    | none => simp [analyze_method_sizes]
    | some ls =>
      obtain ⟨h1, h2⟩ := amScanF_facts fp ls (ls.length + 1) 0
      exact ⟨fun m hm => (h1 m hm).2, h2⟩
  · obtain ⟨h1, h2⟩ := apScanMethods_facts file lines 1 false "" 0 0 (by simp)
    exact ⟨fun v hv => (h1 v hv).2.1, h2⟩

/-- C2, witness: the invariants applied to the concrete reported spans
(lines 1–53 of `cxLinesA` under `analyze_method_sizes`, lines 1–75 of
`m75lines` under `analyze_project`). -/
theorem c2_span_invariants_witness : (1 : Nat) ≤ 53 ∧ (1 : Nat) ≤ 75 :=
  ⟨(c2_span_invariants "file.dart" (some cxLinesA) "m.dart" m75lines).1.1
      ⟨"file.dart", "foo", 1, 53, 53⟩ (by decide),
   (c2_span_invariants "file.dart" (some cxLinesA) "m.dart" m75lines).2.1
      ⟨"m.dart", "f", 75, 1, 75⟩ (by decide)⟩


/-! ### Impact scores (C6) and read failures (C7) -/

theorem scoreOf_bumpScore (k : String) (v : Nat) (f : String) :
    ∀ d : List (String × Nat),
      scoreOf (bumpScore k v d) f = scoreOf d f + (if k = f then v else 0) := by
  intro d
  induction d with
  | nil => by_cases h : k = f <;> simp [bumpScore, scoreOf, List.find?, h]
  | cons p rest ih =>
    obtain ⟨k2, s⟩ := p
    by_cases h2 : k2 = k
    · subst h2
      by_cases h3 : k2 = f
      · subst h3
        simp [bumpScore, scoreOf, List.find?]
      · simp [bumpScore, scoreOf, List.find?, h3]
    · by_cases h3 : k2 = f
      · subst h3
        have hk : ¬(k = k2) := fun hc => h2 hc.symm
        simp [bumpScore, scoreOf, List.find?, h2, hk]
      · simp only [bumpScore, if_neg h2]
        simp [scoreOf, List.find?, h3] at ih ⊢
        exact ih

theorem scoreOf_foldl_fv (f : String) :
    ∀ (fv : List FViol) (d : List (String × Nat)),
      scoreOf (fv.foldl (fun d v => bumpScore v.file (v.excess / 100 * 10) d) d) f =
        scoreOf d f +
          ((fv.filter (fun v => decide (v.file = f))).map
              (fun v => v.excess / 100 * 10)).sum := by
  intro fv
  induction fv with
  | nil => intro d; simp
  | cons v rest ih =>
    intro d
    simp only [List.foldl_cons]
    rw [ih, scoreOf_bumpScore]
    by_cases h : v.file = f
    · simp [List.filter_cons, h]
      omega
    · simp [List.filter_cons, h]

theorem scoreOf_foldl_mv (f : String) :
    ∀ (mv : List PViol) (d : List (String × Nat)),
      scoreOf (mv.foldl (fun d v => bumpScore v.file ((v.lines - 50) / 10) d) d) f =
        scoreOf d f +
          ((mv.filter (fun v => decide (v.file = f))).map
              (fun v => (v.lines - 50) / 10)).sum := by
  intro mv
  induction mv with
  | nil => intro d; simp
  | cons v rest ih =>
    intro d
    simp only [List.foldl_cons]
    rw [ih, scoreOf_bumpScore]
    by_cases h : v.file = f
    · simp [List.filter_cons, h]
      omega
    · simp [List.filter_cons, h]

theorem analyze_file_ok (st : PState) (relpath : String) (copt : Option String) (st2 : PState)
    (h : analyze_file st relpath copt = .ok st2) :
    (∀ v ∈ st2.files_over_500,
        v ∈ st.files_over_500 ∨ (500 < v.lines ∧ v.excess = v.lines - 500)) ∧
    (∀ v ∈ st2.methods_over_50, v ∈ st.methods_over_50 ∨ 50 < v.lines) := by
  unfold analyze_file at h
  split at h
  · cases h
    exact ⟨fun v hv => Or.inl hv, fun v hv => Or.inl hv⟩
  · cases copt with
    | none => exact absurd h (by simp)
    | some content =>
      have h2 : pFileUpdate st relpath (splitNl content.data) = st2 := by
        cases h; rfl
      subst h2
      constructor
      · intro v hv
        simp only [pFileUpdate] at hv
        rcases List.mem_append.mp hv with h1 | h1
        · exact Or.inl h1
        · right
          split at h1
          next hgt =>
            simp only [List.mem_singleton] at h1
            subst h1
            exact ⟨hgt, rfl⟩
          next hgt => exact absurd h1 (List.not_mem_nil v)
      · intro v hv
        simp only [pFileUpdate] at hv
        rcases List.mem_append.mp hv with h1 | h1
        · exact Or.inl h1
        · right
          have hfacts :=
            (apScanMethods_facts relpath (splitNl content.data) 1 false "" 0 0 (by simp)).1 v
              (by simpa [analyze_methods_ap] using h1)
          exact hfacts.2.2.1

theorem analyze_project_facts :
    ∀ (files : List (String × Option String)) (st0 st : PState),
      (∀ v ∈ st0.files_over_500, 500 < v.lines ∧ v.excess = v.lines - 500) →
      (∀ v ∈ st0.methods_over_50, 50 < v.lines) →
      analyze_project_go st0 files = .ok st →
      (∀ v ∈ st.files_over_500, 500 < v.lines ∧ v.excess = v.lines - 500) ∧
      (∀ v ∈ st.methods_over_50, 50 < v.lines) := by
  intro files
  induction files with
  | nil =>
    intro st0 st h1 h2 h3
    simp only [analyze_project_go] at h3
    cases h3
    exact ⟨h1, h2⟩
  | cons f rest ih =>
    intro st0 st h1 h2 h3
    simp only [analyze_project_go] at h3
    cases hf : analyze_file st0 f.1 f.2 with
    | ok st1 =>
      rw [hf] at h3
      obtain ⟨g1, g2⟩ := analyze_file_ok st0 f.1 f.2 st1 hf
      refine ih st1 st ?_ ?_ h3
      · intro v hv
        rcases g1 v hv with hh | hh
        exacts [h1 v hh, hh]
      · intro v hv
        rcases g2 v hv with hh | hh
        exacts [h2 v hh, hh]
    | error e =>
      rw [hf] at h3
      exact absurd h3 (by simp)

/-- `analyze_project()` followed by the report's per-file score table
(empty when the run aborted). -/
def projectScores (files : List (String × Option String)) : List (String × Nat) :=
  match analyze_project files with
  | .ok st => file_scores st.files_over_500 st.methods_over_50
  | .error _ => []

/-- A 650-line file (649 newlines). -/
def file650 : String := String.mk (List.replicate 649 '\n')

/-- A file whose single method spans 75 lines. -/
def method75 : String := String.mk (List.intercalate ['\n'] (m75lines.map String.data))

set_option maxRecDepth 8192 in
/-- C6.  For every run of `analyze_project`, the per-file impact score of
`generate_report` equals the sum of `floor((line_count - 500) / 100) * 10`
over the file's oversized-file records plus the sum of
`floor((method_lines - 50) / 10)` over its oversized-method records; records
exist only when `line_count > 500` resp. `method_lines > 50`.  Concretely, a
650-line file scores 10 and a single 75-line method scores 2. -/
theorem c6_impact_score :
    (∀ (files : List (String × Option String)) (st : PState) (f : String),
        analyze_project files = .ok st →
        scoreOf (file_scores st.files_over_500 st.methods_over_50) f =
          ((st.files_over_500.filter (fun v => decide (v.file = f))).map
              (fun v => (v.lines - 500) / 100 * 10)).sum +
            ((st.methods_over_50.filter (fun v => decide (v.file = f))).map
              (fun v => (v.lines - 50) / 10)).sum ∧
        (∀ v ∈ st.files_over_500, 500 < v.lines) ∧
        (∀ v ∈ st.methods_over_50, 50 < v.lines)) ∧
    scoreOf (projectScores [("big.dart", some file650)]) "big.dart" = 10 ∧
    scoreOf (projectScores [("m.dart", some method75)]) "m.dart" = 2 := by
  refine ⟨?_, by decide, by decide⟩
  intro files st f hok
  obtain ⟨hf, hm⟩ :=
    analyze_project_facts files initPState st (by simp [initPState]) (by simp [initPState]) hok
  refine ⟨?_, fun v hv => (hf v hv).1, hm⟩
  unfold file_scores
  rw [scoreOf_foldl_mv, scoreOf_foldl_fv]
  have hmap :
      (st.files_over_500.filter (fun v => decide (v.file = f))).map
          (fun v => v.excess / 100 * 10) =
        (st.files_over_500.filter (fun v => decide (v.file = f))).map
          (fun v => (v.lines - 500) / 100 * 10) := by
    apply List.map_congr_left
    intro v hv
    rw [(hf v (List.mem_of_mem_filter hv)).2]
  rw [hmap]
  simp [scoreOf, List.find?]

set_option maxRecDepth 8192 in
/-- C6, witness: the invariant applied to the oversized-file record of the
concrete 650-line run. -/
theorem c6_impact_score_witness : (500 : Nat) < 650 :=
  (c6_impact_score.1 [("big.dart", some file650)]
        ⟨1, 650, [⟨"big.dart", 650, 150⟩], []⟩ "big.dart" (by rfl)).2.1
    ⟨"big.dart", 650, 150⟩ (by decide)

/-- C7.  `analyze_file` of `analyze_project.py` has no exception handler: one
unreadable file aborts the whole `analyze_project` run, losing the results of
the successfully read files (first two conjuncts).  By contrast,
`analyze_method_sizes` returns the empty list for an unreadable file and
`analyze_imports_exports` skips it, so those batches continue (last two
conjuncts). -/
theorem c7_read_failure_not_isolated :
    analyze_project [("a.dart", some "x"), ("bad.dart", none), ("c.dart", some "x")] =
      .error () ∧
    analyze_project [("a.dart", some "x"), ("c.dart", some "x")] = .ok ⟨2, 2, [], []⟩ ∧
    analyze_method_sizes "bad.dart" none = [] ∧
    runDead [("a.dart", some "class Foo \x7b\x7d"), ("bad.dart", none)] =
      runDead [("a.dart", some "class Foo \x7b\x7d")] := by
  exact ⟨by rfl, by rfl, by rfl, by decide⟩


/-! ### Stable sort lemmas (shared by the dead-code queries) -/

theorem mem_insertLe {le : α → α → Bool} {x a : α} :
    ∀ {l : List α}, a ∈ insertLe le x l ↔ a = x ∨ a ∈ l := by
  intro l
  induction l with
  | nil => simp [insertLe]
  | cons y ys ih =>
    simp only [insertLe]
    split
    · simp [List.mem_cons]
    · simp only [List.mem_cons, ih]
      tauto

theorem mem_pySorted {le : α → α → Bool} {a : α} :
    ∀ {l : List α}, a ∈ pySorted le l ↔ a ∈ l := by
  intro l
  induction l with
  | nil => simp [pySorted]
  | cons x xs ih =>
    show a ∈ insertLe le x (pySorted le xs) ↔ _
    rw [mem_insertLe, ih]
    simp [List.mem_cons]

theorem length_insertLe (le : α → α → Bool) (x : α) :
    ∀ l : List α, (insertLe le x l).length = l.length + 1 := by
  intro l
  induction l with
  | nil => rfl
  | cons y ys ih =>
    simp only [insertLe]
    split
    · simp
    · simp [ih]

theorem length_pySorted (le : α → α → Bool) :
    ∀ l : List α, (pySorted le l).length = l.length := by
  intro l
  induction l with
  | nil => rfl
  | cons x xs ih =>
    show (insertLe le x (pySorted le xs)).length = _
    rw [length_insertLe, ih]
    rfl

theorem pairwise_insertLe {le : α → α → Bool}
    (htrans : ∀ a b c, le a b = true → le b c = true → le a c = true)
    (htotal : ∀ a b, le a b = true ∨ le b a = true) (x : α) :
    ∀ {l : List α}, l.Pairwise (fun a b => le a b = true) →
      (insertLe le x l).Pairwise (fun a b => le a b = true) := by
  intro l
  induction l with
  | nil => intro _; simp [insertLe]
  | cons y ys ih =>
    intro hp
    rw [List.pairwise_cons] at hp
    obtain ⟨hy, hys⟩ := hp
    simp only [insertLe]
    split
    next hxy =>
      rw [List.pairwise_cons]
      refine ⟨?_, List.pairwise_cons.mpr ⟨hy, hys⟩⟩
      intro b hb
      rcases List.mem_cons.mp hb with rfl | hb
      · exact hxy
      · exact htrans x y b hxy (hy b hb)
    next hxy =>
      rw [List.pairwise_cons]
      have hyx : le y x = true := by
        rcases htotal x y with hh | hh
        · exact absurd hh hxy
        · exact hh
      refine ⟨?_, ih hys⟩
      intro b hb
      rcases mem_insertLe.mp hb with rfl | hb
      · exact hyx
      · exact hy b hb

theorem pairwise_pySorted {le : α → α → Bool}
    (htrans : ∀ a b c, le a b = true → le b c = true → le a c = true)
    (htotal : ∀ a b, le a b = true ∨ le b a = true) :
    ∀ l : List α, (pySorted le l).Pairwise (fun a b => le a b = true) := by
  intro l
  induction l with
  | nil => simp [pySorted]
  | cons x xs ih =>
    show (insertLe le x (pySorted le xs)).Pairwise _
    exact pairwise_insertLe htrans htotal x ih

/-! ### Recorded imports and dead files (C5, C8) -/

theorem mem_allImports_dictAdd (k v : String) (s : String) :
    ∀ d : List (String × List String),
      s ∈ allImportsOf (dictAdd k v d) ↔ s ∈ allImportsOf d ∨ s = v := by
  intro d
  induction d with
  | nil => simp [dictAdd, allImportsOf]
  | cons q rest ih =>
    obtain ⟨k2, vs⟩ := q
    simp only [dictAdd]
    split
    · by_cases hc : vs.contains v
      · simp only [if_pos hc]
        simp only [allImportsOf, List.flatMap_cons, List.mem_append]
        constructor
        · exact fun hh => Or.inl hh
        · rintro (hh | rfl)
          · exact hh
          · exact Or.inl (List.mem_of_elem_eq_true hc)
      · simp only [if_neg hc]
        simp only [allImportsOf, List.flatMap_cons, List.mem_append, List.mem_singleton]
        tauto
    · simp only [allImportsOf, List.flatMap_cons, List.mem_append]
      simp only [allImportsOf] at ih
      rw [ih]
      tauto

theorem mem_allImports_foldl_adds (path : String) (s : String) :
    ∀ (imps : List String) (d : List (String × List String)),
      s ∈ allImportsOf (imps.foldl (fun d x => dictAdd path x d) d) ↔
        s ∈ allImportsOf d ∨ s ∈ imps := by
  intro imps
  induction imps with
  | nil => intro d; simp
  | cons x xs ih =>
    intro d
    simp only [List.foldl_cons]
    rw [ih, mem_allImports_dictAdd]
    simp only [List.mem_cons]
    tauto

theorem mem_allImports_processDead (st : DState) (path : String) (copt : Option String)
    (s : String) :
    s ∈ allImportsOf (processDeadFile st path copt).imports ↔
      s ∈ allImportsOf st.imports ∨
        s ∈ (match copt with
             | none => ([] : List String)
             | some c =>
               (importScan c.data).filter
                 (fun t => !(startsWithS t "package:flutter") && !(startsWithS t "dart:"))) := by
  cases copt with
  | none => simp [processDeadFile]
  | some c =>
    simp only [processDeadFile]
    rw [mem_allImports_foldl_adds]

theorem mem_allImports_runDead_aux (s : String) :
    ∀ (files : List (String × Option String)) (st : DState),
      s ∈ allImportsOf ((files.foldl (fun st f => processDeadFile st f.1 f.2) st).imports) ↔
        s ∈ allImportsOf st.imports ∨ s ∈ recordedImports files := by
  intro files
  induction files with
  | nil => intro st; simp [recordedImports]
  | cons f rest ih =>
    intro st
    simp only [List.foldl_cons]
    rw [ih, mem_allImports_processDead]
    simp only [recordedImports, List.flatMap_cons, List.mem_append]
    cases hf : f.2 <;> (simp [hf]; try tauto)

theorem mem_allImports_runDead (files : List (String × Option String)) (s : String) :
    s ∈ allImportsOf (runDead files).imports ↔ s ∈ recordedImports files := by
  unfold runDead
  rw [mem_allImports_runDead_aux]
  simp [initDState, allImportsOf]

/-- Membership characterization of `find_unused_files` over a full
`analyze_imports_exports` run: a library file is reported dead iff it is not
excluded and no recorded import string contains its basename or its
slash-normalized path as a substring. -/
theorem mem_find_unused_files_iff (libp : List String)
    (files : List (String × Option String)) (p : String) :
    p ∈ find_unused_files libp (runDead files).imports ↔
      p ∈ libp ∧
      containsSubS ".g.dart" p = false ∧
      containsSubS ".mocks.dart" p = false ∧
      containsSubS "export.dart" p = false ∧
      endsWithS p "main.dart" = false ∧
      ∀ imp ∈ recordedImports files,
        containsSubS (basename p) imp = false ∧ containsSubS (slashPath p) imp = false := by
  unfold find_unused_files
  rw [List.mem_filter]
  simp only [Bool.and_eq_true, Bool.not_eq_true']
  constructor
  · rintro ⟨hmem, ⟨⟨⟨⟨h1, h2⟩, h3⟩, h4⟩, h5⟩⟩
    refine ⟨hmem, h1, h2, h3, h4, ?_⟩
    intro imp himp
    rw [List.any_eq_false] at h5
    have h6 := h5 imp ((mem_allImports_runDead files imp).mpr himp)
    simp only [Bool.or_eq_true, not_or, Bool.not_eq_true] at h6
    exact h6
  · rintro ⟨hmem, h1, h2, h3, h4, h5⟩
    refine ⟨hmem, ⟨⟨⟨⟨h1, h2⟩, h3⟩, h4⟩, ?_⟩⟩
    rw [List.any_eq_false]
    intro imp himp
    simp only [Bool.or_eq_true, not_or, Bool.not_eq_true]
    exact h5 imp ((mem_allImports_runDead files imp).mp himp)

/-- C5.  A non-excluded library file is reported dead iff no recorded import
string contains either its basename or its (slash-normalized) relative path
as a substring; consequently `lib/util.dart`, whose basename occurs inside
the unrelated import string `other_util.dart`, is not reported dead even
though nothing imports it (second conjunct: only `lib/b.dart` is reported). -/
theorem c5_dead_file_detection :
    (∀ (libp : List String) (files : List (String × Option String)) (p : String),
        p ∈ find_unused_files libp (runDead files).imports ↔
          p ∈ libp ∧
          containsSubS ".g.dart" p = false ∧
          containsSubS ".mocks.dart" p = false ∧
          containsSubS "export.dart" p = false ∧
          endsWithS p "main.dart" = false ∧
          ∀ imp ∈ recordedImports files,
            containsSubS (basename p) imp = false ∧
              containsSubS (slashPath p) imp = false) ∧
    find_unused_files ["lib/util.dart", "lib/b.dart"]
        (runDead [("lib/util.dart", some ""),
          ("lib/b.dart", some "import 'other_util.dart';")]).imports =
      ["lib/b.dart"] :=
  ⟨mem_find_unused_files_iff, by decide⟩

/-- C8, counterexample.  The class-usage counter of
`analyze_imports_exports` counts a class's occurrences only in files
processed at or after its defining file, so processing the same two files in
the two possible orders yields different usage counts (1 vs 2) and different
dead-symbol outputs (`Foo` reported vs not reported): the analysis output is
not a function of the set of file contents alone. -/
theorem c8_order_dependence_counterexample :
    lookupNat (runDead [("a.dart", some "Foo x;"),
        ("b.dart", some "class Foo \x7b\x7d")]).class_usages "Foo" = 1 ∧
    lookupNat (runDead [("b.dart", some "class Foo \x7b\x7d"),
        ("a.dart", some "Foo x;")]).class_usages "Foo" = 2 ∧
    find_unused_classes (runDead [("a.dart", some "Foo x;"),
        ("b.dart", some "class Foo \x7b\x7d")]) = [⟨"Foo", ["b.dart"], 1⟩] ∧
    find_unused_classes (runDead [("b.dart", some "class Foo \x7b\x7d"),
        ("a.dart", some "Foo x;")]) = [] := by
  exact ⟨by decide, by decide, by decide, by decide⟩

/-- C8, amended.  Dead-file determination is order-independent: whether a
given file is reported by `find_unused_files` depends only on the multiset
of file contents, not on the order in which the files are processed (the
class-usage counts, by contrast, are order-dependent, as the counterexample
shows). -/
theorem c8_dead_files_order_independent :
    ∀ (lib lib2 test test2 : List (String × Option String)) (p : String),
      lib.Perm lib2 → test.Perm test2 →
      (p ∈ find_unused_files (lib.map Prod.fst) (runDead (lib ++ test)).imports ↔
        p ∈ find_unused_files (lib2.map Prod.fst) (runDead (lib2 ++ test2)).imports) := by
  intro lib lib2 test test2 p hl ht
  rw [mem_find_unused_files_iff, mem_find_unused_files_iff]
  have hmem : p ∈ lib.map Prod.fst ↔ p ∈ lib2.map Prod.fst := (hl.map Prod.fst).mem_iff
  have himp : ∀ imp, imp ∈ recordedImports (lib ++ test) ↔
      imp ∈ recordedImports (lib2 ++ test2) := by
    intro imp
    unfold recordedImports
    rw [List.mem_flatMap, List.mem_flatMap]
    constructor
    · rintro ⟨f, hf, hin⟩
      exact ⟨f, ((hl.append ht).mem_iff).mp hf, hin⟩
    · rintro ⟨f, hf, hin⟩
      exact ⟨f, ((hl.append ht).mem_iff).mpr hf, hin⟩
  constructor
  · rintro ⟨h1, h2, h3, h4, h5, h6⟩
    exact ⟨hmem.mp h1, h2, h3, h4, h5, fun imp hi => h6 imp ((himp imp).mpr hi)⟩
  · rintro ⟨h1, h2, h3, h4, h5, h6⟩
    exact ⟨hmem.mpr h1, h2, h3, h4, h5, fun imp hi => h6 imp ((himp imp).mp hi)⟩

/-- C8, witness: the order-independence of dead-file reporting applied to a
concrete two-file library in its two processing orders. -/
theorem c8_dead_files_order_independent_witness :
    "lib/a.dart" ∈ find_unused_files
        ([("lib/a.dart", some "x"), ("lib/b.dart", some "y")].map Prod.fst)
        (runDead ([("lib/a.dart", some "x"), ("lib/b.dart", some "y")] ++ [])).imports ↔
      "lib/a.dart" ∈ find_unused_files
        ([("lib/b.dart", some "y"), ("lib/a.dart", some "x")].map Prod.fst)
        (runDead ([("lib/b.dart", some "y"), ("lib/a.dart", some "x")] ++ [])).imports :=
  c8_dead_files_order_independent _ _ _ _ "lib/a.dart"
    (List.Perm.swap ("lib/b.dart", some "y") ("lib/a.dart", some "x") [])
    (List.Perm.refl [])


/-! ### The canonical dead-symbol input (C3) -/

theorem eatLit_append_self (p r : List Char) : eatLit p (p ++ r) = some r := by
  induction p with
  | nil => rfl
  | cons c cs ih => simp [eatLit, ih]

theorem head_dropWhile_not (p : Char → Bool) :
    ∀ (l : List Char) (c : Char), (l.dropWhile p).head? = some c → p c = false := by
  intro l
  induction l with
  | nil => intro c h; simp [List.dropWhile] at h
  | cons x xs ih =>
    intro c h
    simp only [List.dropWhile] at h
    split at h
    · exact ih c h
    next hx =>
      simp only [List.head?_cons, Option.some.injEq] at h
      subst h
      exact Bool.not_eq_true _ ▸ hx

theorem wbHere_found (nm b : List Char)
    (hb : ∀ c, b.head? = some c → isWordCh c = false) :
    wbHere nm false (nm ++ b) = true := by
  unfold wbHere
  rw [eatLit_append_self]
  cases b with
  | nil => simp
  | cons c t => simp [hb c rfl]

theorem wbSearchAux_complete (nm : List Char) (hnm : nm ≠ []) (sp : Char)
    (hsp : isWordCh sp = false) (b : List Char)
    (hb : ∀ c, b.head? = some c → isWordCh c = false) :
    ∀ (a : List Char) (pw : Bool), wbSearchAux nm pw (a ++ sp :: (nm ++ b)) = true := by
  intro a
  induction a with
  | nil =>
    intro pw
    show wbSearchAux nm pw (sp :: (nm ++ b)) = true
    have hmain : wbSearchAux nm false (nm ++ b) = true := by
      obtain ⟨c0, t0, hcons⟩ : ∃ c0 t0, nm ++ b = c0 :: t0 := by
        cases hx : nm ++ b with
        | nil =>
          cases nm with
          | nil => exact absurd rfl hnm
          | cons u v => simp at hx
        | cons c0 t0 => exact ⟨c0, t0, rfl⟩
      rw [hcons]
      simp only [wbSearchAux]
      rw [← hcons, wbHere_found nm b hb]
      simp
    simp only [wbSearchAux]
    rw [hsp, hmain]
    simp
  | cons c t ih =>
    intro pw
    rw [List.cons_append]
    simp only [wbSearchAux]
    rw [ih (isWordCh c)]
    simp

theorem classCont_suffix {r rest : List Char} (h : classCont r = some rest) :
    ∃ k, r = k ++ rest := by
  unfold classCont at h
  rcases (Option.orElse_eq_some _ _ _).mp h with h1 | ⟨-, h1⟩
  case _ =>
    unfold spThen at h1
    obtain ⟨p1, h2, h3⟩ := Option.bind_eq_some.mp h1
    obtain ⟨heq, -, -, -⟩ := grab1_eq_append h2
    exact ⟨p1.1 ++ "extends".data, by rw [heq, eatLit_eq_append _ _ _ h3, List.append_assoc]⟩
  rcases (Option.orElse_eq_some _ _ _).mp h1 with h2 | ⟨-, h2⟩
  case _ =>
    unfold spThen at h2
    obtain ⟨p1, h3, h4⟩ := Option.bind_eq_some.mp h2
    obtain ⟨heq, -, -, -⟩ := grab1_eq_append h3
    exact ⟨p1.1 ++ "implements".data,
      by rw [heq, eatLit_eq_append _ _ _ h4, List.append_assoc]⟩
  rcases (Option.orElse_eq_some _ _ _).mp h2 with h3 | ⟨-, h3⟩
  case _ =>
    unfold spThen at h3
    obtain ⟨p1, h4, h5⟩ := Option.bind_eq_some.mp h3
    obtain ⟨heq, -, -, -⟩ := grab1_eq_append h4
    exact ⟨p1.1 ++ "with".data, by rw [heq, eatLit_eq_append _ _ _ h5, List.append_assoc]⟩
  case _ =>
    have h4 := eatCh_some h3
    refine ⟨r.takeWhile isSpaceCh ++ [obrace], ?_⟩
    conv_lhs => rw [← List.takeWhile_append_dropWhile isSpaceCh r]
    rw [h4, List.append_assoc]
    rfl

theorem classAt_parts {l : List Char} {nm : String} {rest : List Char}
    (h : classAt l = some (nm, rest)) :
    (∃ (a b : List Char) (sp : Char),
        nm.data ≠ [] ∧ l = a ++ sp :: (nm.data ++ b) ∧ isSpaceCh sp = true ∧
        (∀ c, b.head? = some c → isWordCh c = false)) ∧
    ∃ k, l = k ++ rest := by
  unfold classAt at h
  obtain ⟨r0, h0, h1⟩ := Option.bind_eq_some.mp h
  obtain ⟨p1, h2, h3⟩ := Option.bind_eq_some.mp h1
  obtain ⟨p2, h4, h5⟩ := Option.bind_eq_some.mp h3
  obtain ⟨rest0, h6, hval⟩ := Option.map_eq_some'.mp h5
  simp only [Prod.mk.injEq] at hval
  obtain ⟨hnm, hrest⟩ := hval
  subst hrest
  have e0 := eatLit_eq_append _ _ _ h0
  obtain ⟨e1, hne1, ht1, hr1⟩ := grab1_eq_append h2
  obtain ⟨e2, hne2, ht2, hr2⟩ := grab1_eq_append h4
  have hdata : nm.data = p2.1 := by rw [← hnm]
  constructor
  · obtain ⟨t1i, sp, hsplit⟩ : ∃ t1i sp, p1.1 = t1i ++ [sp] :=
      ⟨p1.1.dropLast, p1.1.getLast hne1, (List.dropLast_append_getLast hne1).symm⟩
    have hsp : isSpaceCh sp = true := by
      have hmem : sp ∈ p1.1 := by rw [hsplit]; simp
      rw [ht1] at hmem
      exact List.mem_takeWhile_imp hmem
    have hb : ∀ c, p2.2.head? = some c → isWordCh c = false := by
      intro c hc
      rw [hr2] at hc
      exact head_dropWhile_not isWordCh p1.2 c hc
    refine ⟨"class".data ++ t1i, p2.2, sp, by rw [hdata]; exact hne2, ?_, hsp, hb⟩
    rw [e0, e1, hsplit, e2, hdata]
    simp [List.append_assoc]
  · obtain ⟨k, hk⟩ := classCont_suffix h6
    refine ⟨"class".data ++ (p1.1 ++ (p2.1 ++ k)), ?_⟩
    rw [e0, e1, e2, hk]
    simp [List.append_assoc]

theorem classScanF_found :
    ∀ (fuel : Nat) (l : List Char) (nm : String), nm ∈ classScanF fuel l →
      ∃ (a b : List Char) (sp : Char),
        nm.data ≠ [] ∧ l = a ++ sp :: (nm.data ++ b) ∧ isSpaceCh sp = true ∧
        (∀ c, b.head? = some c → isWordCh c = false) := by
  intro fuel
  induction fuel with
  | zero => intro l nm h; simp [classScanF] at h
  | succ fuel ih =>
    intro l nm h
    cases l with
    | nil => simp [classScanF] at h
    | cons c t =>
      cases hcA : classAt (c :: t) with
      | some p =>
        obtain ⟨nm2, rest⟩ := p
        simp only [classScanF, hcA] at h
        rcases List.mem_cons.mp h with rfl | hmem
        · obtain ⟨⟨a, b, sp, h0, h1, h2, h3⟩, -⟩ := classAt_parts hcA
          exact ⟨a, b, sp, h0, h1, h2, h3⟩
        · obtain ⟨a, b, sp, h0, h1, h2, h3⟩ := ih rest nm hmem
          obtain ⟨-, k, hk⟩ := classAt_parts hcA
          refine ⟨k ++ a, b, sp, h0, ?_, h2, h3⟩
          rw [hk, h1, List.append_assoc]
      | none =>
        simp only [classScanF, hcA] at h
        obtain ⟨a, b, sp, h0, h1, h2, h3⟩ := ih t nm h
        exact ⟨c :: a, b, sp, h0, by rw [h1]; rfl, h2, h3⟩

theorem isWordCh_false_of_space {c : Char} (h : isSpaceCh c = true) : isWordCh c = false := by
  simp only [isSpaceCh, Bool.or_eq_true, decide_eq_true_eq] at h
  rcases h with ((((rfl | rfl) | rfl) | rfl) | rfl) | rfl <;> rfl

theorem wbSearch_of_classScan {fc : String} {C : String}
    (h : C ∈ classScan fc.data) : wbSearch C fc = true := by
  obtain ⟨a, b, sp, h0, h1, h2, h3⟩ := classScanF_found (fc.data.length + 1) fc.data C h
  unfold wbSearch
  rw [h1]
  exact wbSearchAux_complete C.data h0 sp (isWordCh_false_of_space h2) b h3 a false

theorem foldl_usage_no_hits (content : String) :
    ∀ (d : List (String × List String)) (u : List (String × Nat)),
      (∀ q ∈ d, wbSearch q.1 content = false) →
      d.foldl (fun u p => if wbSearch p.1 content then bumpUsage p.1 u else u) u = u := by
  intro d
  induction d with
  | nil => intro u _; rfl
  | cons q rest ih =>
    intro u h
    have hq : wbSearch q.1 content = false := h q (List.mem_cons_self q rest)
    rw [List.foldl_cons, if_neg (by simp [hq])]
    exact ih u (fun q2 hq2 => h q2 (List.mem_cons_of_mem q hq2))

theorem foldDead_no_class_changes :
    ∀ (files : List (String × Option String)) (st : DState),
      (∀ f ∈ files, ∀ c : String, f.2 = some c → classScan c.data = []) →
      (∀ f ∈ files, ∀ c : String, f.2 = some c →
          ∀ q ∈ st.class_definitions, wbSearch q.1 c = false) →
      (files.foldl (fun st f => processDeadFile st f.1 f.2) st).class_definitions =
        st.class_definitions ∧
      (files.foldl (fun st f => processDeadFile st f.1 f.2) st).class_usages =
        st.class_usages := by
  intro files
  induction files with
  | nil => intro st _ _; exact ⟨rfl, rfl⟩
  | cons f rest ih =>
    intro st h1 h2
    simp only [List.foldl_cons]
    have hdefs : (processDeadFile st f.1 f.2).class_definitions = st.class_definitions := by
      cases hf : f.2 with
      | none => simp [processDeadFile, hf]
      | some c =>
        have hcs : classScan c.data = [] := h1 f (List.mem_cons_self f rest) c hf
        simp [processDeadFile, hf, hcs]
    have husg : (processDeadFile st f.1 f.2).class_usages = st.class_usages := by
      cases hf : f.2 with
      | none => simp [processDeadFile, hf]
      | some c =>
        have hcs : classScan c.data = [] := h1 f (List.mem_cons_self f rest) c hf
        have hno : ∀ q ∈ st.class_definitions, wbSearch q.1 c = false :=
          h2 f (List.mem_cons_self f rest) c hf
        simp only [processDeadFile, hf, hcs, List.foldl_nil]
        exact foldl_usage_no_hits c st.class_definitions st.class_usages hno
    obtain ⟨g1, g2⟩ := ih (processDeadFile st f.1 f.2)
      (fun g hg c hc => h1 g (List.mem_cons_of_mem f hg) c hc)
      (fun g hg c hc => by
        rw [hdefs]
        exact h2 g (List.mem_cons_of_mem f hg) c hc)
    exact ⟨g1.trans hdefs, g2.trans husg⟩

/-- C3.  First part: for the canonical minimal input — one file defining one
class, no other file defining a class or containing a word-boundary match of
the class name — the class's usage count is exactly 1 and the dead-symbol
query reports exactly that class.  Second part: in every state, every
defined symbol whose usage count is at most 1 appears among the dead-symbol
candidates with that count. -/
theorem c3_dead_symbol_minimal_input :
    (∀ (pre post : List (String × Option String)) (fp fc C : String),
        classScan fc.data = [C] →
        (∀ f ∈ pre ++ post, ∀ c : String, f.2 = some c →
            classScan c.data = [] ∧ wbSearch C c = false) →
        lookupNat (runDead (pre ++ [(fp, some fc)] ++ post)).class_usages C = 1 ∧
        find_unused_classes (runDead (pre ++ [(fp, some fc)] ++ post)) =
          [⟨C, [fp], 1⟩]) ∧
    (∀ (st : DState) (C : String) (fls : List String),
        (C, fls) ∈ st.class_definitions → lookupNat st.class_usages C ≤ 1 →
        ∃ e ∈ find_unused_classes st, e.name = C ∧
          e.usage_count = lookupNat st.class_usages C) := by
  constructor
  · intro pre post fp fc C hdef hothers
    have hw : wbSearch C fc = true :=
      wbSearch_of_classScan (by rw [hdef]; exact List.mem_singleton.mpr rfl)
    unfold runDead
    rw [List.foldl_append, List.foldl_append]
    obtain ⟨hd1, hu1⟩ := foldDead_no_class_changes pre initDState
      (fun f hf c hc => (hothers f (List.mem_append_left post hf) c hc).1)
      (fun f hf c hc => by simp [initDState])
    set st1 := pre.foldl (fun st f => processDeadFile st f.1 f.2) initDState with hst1
    have hst2defs :
        (processDeadFile st1 fp (some fc)).class_definitions = [(C, [fp])] := by
      simp [processDeadFile, hdef, hd1, initDState, dictAppend]
    have hst2usg :
        (processDeadFile st1 fp (some fc)).class_usages = [(C, 1)] := by
      simp [processDeadFile, hdef, hd1, hu1, initDState, dictAppend, hw, bumpUsage]
    have hfold1 : List.foldl (fun st f => processDeadFile st f.1 f.2) st1 [(fp, some fc)] =
        processDeadFile st1 fp (some fc) := rfl
    rw [hfold1]
    obtain ⟨hd3, hu3⟩ := foldDead_no_class_changes post (processDeadFile st1 fp (some fc))
      (fun f hf c hc => (hothers f (List.mem_append_right pre hf) c hc).1)
      (fun f hf c hc => by
        rw [hst2defs]
        intro q hq
        rcases List.mem_singleton.mp hq with rfl
        exact (hothers f (List.mem_append_right pre hf) c hc).2)
    constructor
    · rw [hu3, hst2usg]
      simp [lookupNat, List.find?]
    · unfold find_unused_classes
      rw [hd3, hu3, hst2defs, hst2usg]
      simp [lookupNat, List.find?, pySorted, insertLe]
  · intro st C fls hmem hle
    refine ⟨⟨C, fls, lookupNat st.class_usages C⟩, ?_, rfl, rfl⟩
    unfold find_unused_classes
    rw [mem_pySorted]
    exact List.mem_filterMap.mpr ⟨(C, fls), hmem, by simp [hle]⟩

/-- C3, witness: the canonical input instantiated with a concrete corpus
(one neutral file before, one after the defining file). -/
theorem c3_dead_symbol_minimal_input_witness :
    lookupNat (runDead ([("p.dart", some "int x;")] ++ [("f.dart", some "class Foo \x7b\x7d")]
        ++ [("q.dart", some "import 'a';")])).class_usages "Foo" = 1 ∧
    ∃ e ∈ find_unused_classes (runDead [("z.dart", some "class Zed \x7b\x7d")]),
      e.name = "Zed" ∧
      e.usage_count =
        lookupNat (runDead [("z.dart", some "class Zed \x7b\x7d")]).class_usages "Zed" :=
  ⟨(c3_dead_symbol_minimal_input.1 [("p.dart", some "int x;")]
        [("q.dart", some "import 'a';")] "f.dart" "class Foo \x7b\x7d" "Foo" (by decide)
        (by
          intro f hf c hc
          simp only [List.mem_append, List.mem_singleton] at hf
          rcases hf with rfl | rfl <;>
            (simp only [Option.some.injEq] at hc; subst hc; exact ⟨by decide, by decide⟩))).1,
   c3_dead_symbol_minimal_input.2 (runDead [("z.dart", some "class Zed \x7b\x7d")]) "Zed"
     ["z.dart"] (by decide) (by decide)⟩


/-! ### Signature clusters (C4, C9) -/

/-- Lookup in the signatures dictionary (`[]` for an absent key). -/
def dlookup : List (String × List String) → String → List String
  | [], _ => []
  | (k2, vs) :: rest, k => if k2 = k then vs else dlookup rest k

theorem dlookup_dictAppend_same (k v : String) :
    ∀ d, dlookup (dictAppend k v d) k = dlookup d k ++ [v] := by
  intro d
  induction d with
  | nil => simp [dictAppend, dlookup]
  | cons q rest ih =>
    obtain ⟨k2, vs⟩ := q
    by_cases h : k2 = k
    · subst h
      simp [dictAppend, dlookup]
    · simp only [dictAppend, if_neg h, dlookup]
      exact ih

theorem dlookup_dictAppend_other (k v k2 : String) (hne : k2 ≠ k) :
    ∀ d, dlookup (dictAppend k v d) k2 = dlookup d k2 := by
  intro d
  induction d with
  | nil => simp [dictAppend, dlookup, Ne.symm hne]
  | cons q rest ih =>
    obtain ⟨k3, vs⟩ := q
    by_cases h : k3 = k
    · subst h
      simp only [dictAppend, if_pos rfl, dlookup,
        if_neg (fun hc : k3 = k2 => hne hc.symm)]
    · simp only [dictAppend, if_neg h, dlookup]
      by_cases h2 : k3 = k2
      · simp only [if_pos h2]
      · simp only [if_neg h2]
        exact ih

theorem dlookup_foldSigs (fp k : String) :
    ∀ (sigs : List String) (d : List (String × List String)),
      (dlookup (sigs.foldl (fun d sig => dictAppend sig fp d) d) k).length =
        (dlookup d k).length + (sigs.filter (fun s => decide (s = k))).length := by
  intro sigs
  induction sigs with
  | nil => intro d; simp
  | cons s rest ih =>
    intro d
    simp only [List.foldl_cons]
    rw [ih]
    by_cases h : s = k
    · subst h
      rw [dlookup_dictAppend_same]
      simp [List.filter_cons]
      omega
    · rw [dlookup_dictAppend_other s fp k (fun hc => h hc.symm)]
      simp [List.filter_cons, h]

theorem dlookup_sigFold_aux (k : String) :
    ∀ (files : List (String × Option String)) (d : List (String × List String)),
      (dlookup (files.foldl
          (fun d f =>
            match f.2 with
            | none => d
            | some content =>
              (funcScan content.data).foldl (fun d sig => dictAppend sig f.1 d) d) d) k).length =
        (dlookup d k).length + countOccs k files := by
  intro files
  induction files with
  | nil => intro d; simp [countOccs]
  | cons f rest ih =>
    intro d
    simp only [List.foldl_cons]
    rw [ih]
    cases hf : f.2 with
    | none =>
      simp [countOccs, hf, List.map_cons, List.sum_cons]
    | some c =>
      dsimp only
      rw [dlookup_foldSigs]
      simp only [countOccs, List.map_cons, List.sum_cons, hf]
      omega

theorem dlookup_sigFold (files : List (String × Option String)) (k : String) :
    (dlookup (sigFold files) k).length = countOccs k files := by
  unfold sigFold
  rw [dlookup_sigFold_aux]
  simp [dlookup]

theorem mem_keys_dictAppend (k v x : String) :
    ∀ d, x ∈ (dictAppend k v d).map Prod.fst ↔ x ∈ d.map Prod.fst ∨ x = k := by
  intro d
  induction d with
  | nil => simp [dictAppend]
  | cons q rest ih =>
    obtain ⟨k2, vs⟩ := q
    by_cases h : k2 = k
    · subst h
      have he : dictAppend k2 v ((k2, vs) :: rest) = (k2, vs ++ [v]) :: rest := by
        simp [dictAppend]
      rw [he]
      simp only [List.map_cons, List.mem_cons]
      tauto
    · simp only [dictAppend, if_neg h, List.map_cons, List.mem_cons]
      rw [ih]
      tauto

theorem nodupkeys_dictAppend (k v : String) :
    ∀ d, (d.map Prod.fst).Nodup → ((dictAppend k v d).map Prod.fst).Nodup := by
  intro d
  induction d with
  | nil => intro _; simp [dictAppend]
  | cons q rest ih =>
    obtain ⟨k2, vs⟩ := q
    intro hnd
    simp only [List.map_cons, List.nodup_cons] at hnd
    obtain ⟨hq, hnd2⟩ := hnd
    by_cases h : k2 = k
    · subst h
      have he : dictAppend k2 v ((k2, vs) :: rest) = (k2, vs ++ [v]) :: rest := by
        simp [dictAppend]
      rw [he]
      simp only [List.map_cons, List.nodup_cons]
      exact ⟨hq, hnd2⟩
    · simp only [dictAppend, if_neg h, List.map_cons, List.nodup_cons]
      refine ⟨?_, ih hnd2⟩
      rw [mem_keys_dictAppend]
      rintro (hc | rfl)
      · exact hq hc
      · exact h rfl

theorem nodupkeys_foldSigs (fp : String) :
    ∀ (sigs : List String) (d : List (String × List String)),
      (d.map Prod.fst).Nodup →
      ((sigs.foldl (fun d sig => dictAppend sig fp d) d).map Prod.fst).Nodup := by
  intro sigs
  induction sigs with
  | nil => intro d h; exact h
  | cons s rest ih =>
    intro d h
    simp only [List.foldl_cons]
    exact ih _ (nodupkeys_dictAppend s fp d h)

theorem nodupkeys_sigFold (files : List (String × Option String)) :
    ((sigFold files).map Prod.fst).Nodup := by
  unfold sigFold
  suffices h : ∀ (fs : List (String × Option String)) (d : List (String × List String)),
      (d.map Prod.fst).Nodup →
      ((fs.foldl
          (fun d f =>
            match f.2 with
            | none => d
            | some content =>
              (funcScan content.data).foldl (fun d sig => dictAppend sig f.1 d) d) d).map
        Prod.fst).Nodup by
    exact h files [] (by simp)
  intro fs
  induction fs with
  | nil => intro d h; exact h
  | cons f rest ih =>
    intro d h
    simp only [List.foldl_cons]
    cases hf : f.2 with
    | none => exact ih d h
    | some c => exact ih _ (nodupkeys_foldSigs f.1 (funcScan c.data) d h)

theorem dlookup_of_mem_nodup :
    ∀ (d : List (String × List String)), (d.map Prod.fst).Nodup →
      ∀ p ∈ d, dlookup d p.1 = p.2 := by
  intro d
  induction d with
  | nil => intro _ p hp; exact absurd hp (List.not_mem_nil p)
  | cons q rest ih =>
    intro hnd p hp
    simp only [List.map_cons, List.nodup_cons] at hnd
    obtain ⟨hq, hnd2⟩ := hnd
    obtain ⟨k2, vs⟩ := q
    rcases List.mem_cons.mp hp with rfl | hp2
    · simp [dlookup]
    · have hne : ¬(k2 = p.1) := by
        intro hc
        exact hq (hc ▸ List.mem_map.mpr ⟨p, hp2, rfl⟩)
      simp only [dlookup, if_neg hne]
      exact ih hnd2 p hp2

theorem dlookup_mem :
    ∀ (d : List (String × List String)) (k : String),
      dlookup d k ≠ [] → (k, dlookup d k) ∈ d := by
  intro d
  induction d with
  | nil => intro k h; exact absurd rfl h
  | cons q rest ih =>
    intro k h
    obtain ⟨k2, vs⟩ := q
    by_cases hk : k2 = k
    · subst hk
      simp only [dlookup, if_pos rfl] at h ⊢
      exact List.mem_cons_self _ _
    · simp only [dlookup, if_neg hk] at h ⊢
      exact List.mem_cons_of_mem _ (ih k h)

/-- Membership in the pre-truncation cluster list is equivalent to the
occurrence-count and signature-length thresholds. -/
theorem reportable_iff (files : List (String × Option String)) (sig : String) :
    (∃ e ∈ reportableClusters files, e.signature = sig) ↔
      2 < countOccs sig files ∧ 30 < sig.length := by
  constructor
  · rintro ⟨e, he, hsig⟩
    obtain ⟨q, hq, hcond⟩ := List.mem_filterMap.mp he
    split at hcond
    next hc =>
      simp only [Bool.and_eq_true, decide_eq_true_eq] at hc
      obtain ⟨hc1, hc2⟩ := hc
      have hval : e = ⟨q.1, pySetList q.2, q.2.length⟩ := by
        cases hcond; rfl
      have hq1 : q.1 = sig := by rw [← hsig, hval]
      have hdl : dlookup (sigFold files) q.1 = q.2 :=
        dlookup_of_mem_nodup (sigFold files) (nodupkeys_sigFold files) q hq
      have hocc : countOccs sig files = q.2.length := by
        rw [← dlookup_sigFold files sig, ← hq1, hdl]
      refine ⟨by omega, by rw [← hq1]; exact hc2⟩
    next => exact absurd hcond (by simp)
  · rintro ⟨h1, h2⟩
    have hlen : (dlookup (sigFold files) sig).length = countOccs sig files :=
      dlookup_sigFold files sig
    have hne : dlookup (sigFold files) sig ≠ [] := by
      intro hc
      rw [hc] at hlen
      simp at hlen
      omega
    refine ⟨⟨sig, pySetList (dlookup (sigFold files) sig),
        (dlookup (sigFold files) sig).length⟩, ?_, rfl⟩
    apply List.mem_filterMap.mpr
    refine ⟨(sig, dlookup (sigFold files) sig), dlookup_mem _ _ hne, ?_⟩
    have hgt : (dlookup (sigFold files) sig).length > 2 := by omega
    simp [hgt, h2]

/-- The spec's generic example header. -/
def futureHdr : String := "Future<void> loadData(String id, bool force)"

/-- A 36-character header that `func_pattern` does match. -/
def vHdr : String := "void loadData(String id, bool force)"

/-- Three files each containing `vHdr` once. -/
def vcorp3 : List (String × Option String) :=
  [("a.dart", some vHdr), ("b.dart", some vHdr), ("c.dart", some vHdr)]

/-- C4, counterexample.  The claim says three files each containing the
44-character header `Future<void> loadData(String id, bool force)` produce
one reportable cluster with count 3; in fact `func_pattern` requires
whitespace right after the return-type keyword, so `Future<void>` never
matches and the corpus produces no cluster at all. -/
theorem c4_generic_header_counterexample :
    find_duplications [("a.dart", some futureHdr), ("b.dart", some futureHdr),
        ("c.dart", some futureHdr)] = [] ∧
    futureHdr.length = 44 := by
  exact ⟨by decide, by decide⟩

/-- C4, amended.  A cluster is reportable iff the number of recorded
occurrences of the signature (one per `func_pattern` match, with
multiplicity — not the number of distinct files) exceeds 2 and the signature
is longer than 30 characters.  The pattern does not match generic return
types, so the spec's `Future<void>` example yields nothing; the matched
36-character header `void loadData(String id, bool force)` in three files
yields one cluster with count 3, in two files none, and three occurrences
inside a single file also yield a cluster. -/
theorem c4_reportable_characterization :
    (∀ (files : List (String × Option String)) (sig : String),
        (∃ e ∈ reportableClusters files, e.signature = sig) ↔
          2 < countOccs sig files ∧ 30 < sig.length) ∧
    find_duplications vcorp3 = [⟨vHdr, ["a.dart", "b.dart", "c.dart"], 3⟩] ∧
    find_duplications [("a.dart", some vHdr), ("b.dart", some vHdr)] = [] ∧
    find_duplications [("a.dart", some (vHdr ++ vHdr ++ vHdr))] = [⟨vHdr, ["a.dart"], 3⟩] :=
  ⟨reportable_iff, by decide, by decide, by decide⟩

/-- One of 31 distinct 31-character signatures. -/
def c9sig (k : Nat) : String :=
  "int " ++ String.mk ("mAAAAAAAAAAAAAAAAAAAAAA".data ++
    [Nat.digitChar (k / 10), Nat.digitChar (k % 10)]) ++ "()"

/-- 31 files, file `k` containing signature `k` three times. -/
def c9corpus : List (String × Option String) :=
  (List.range 31).map (fun k =>
    (String.mk ("f".data ++ [Nat.digitChar (k / 10), Nat.digitChar (k % 10)]) ++ ".dart",
      some (c9sig k ++ c9sig k ++ c9sig k)))

set_option maxRecDepth 16384 in
/-- C9, counterexample.  On a corpus with 31 reportable clusters,
`find_duplications` itself returns only 30: the `[:30]` truncation is applied
inside the core clustering function, so the returned cluster set is not
complete. -/
theorem c9_truncation_counterexample :
    (reportableClusters c9corpus).length = 31 ∧
    (find_duplications c9corpus).length = 30 ∧
    (∃ e ∈ reportableClusters c9corpus, e.signature = c9sig 30) ∧
    (∀ e ∈ find_duplications c9corpus, e.signature ≠ c9sig 30) := by
  exact ⟨by decide, by decide, by decide, by decide⟩

/-- C9, amended.  `find_duplications` returns the reportable clusters sorted
descending by occurrence count but truncated to the first 30 inside the
function itself: its length is `min 30` of the reportable count, every
returned cluster is reportable, and the returned set is complete only when
at most 30 reportable clusters exist. -/
theorem c9_truncation_inside_core :
    ∀ files : List (String × Option String),
      (find_duplications files).length = min 30 (reportableClusters files).length ∧
      (find_duplications files).Pairwise (fun a b => b.count ≤ a.count) ∧
      (∀ e ∈ find_duplications files, e ∈ reportableClusters files) ∧
      ((reportableClusters files).length ≤ 30 →
        ∀ e, e ∈ find_duplications files ↔ e ∈ reportableClusters files) := by
  intro files
  refine ⟨?_, ?_, ?_, ?_⟩
  · unfold find_duplications
    rw [List.length_take, length_pySorted]
  · unfold find_duplications
    have hp := @pairwise_pySorted _
      (fun a b : DupCluster => decide (b.count ≤ a.count))
      (fun a b c h1 h2 => by
        simp only [decide_eq_true_eq] at h1 h2 ⊢
        omega)
      (fun a b => by
        rcases Nat.le_total b.count a.count with h | h
        · exact Or.inl (by simpa using h)
        · exact Or.inr (by simpa using h))
      (reportableClusters files)
    have hp2 := List.Pairwise.sublist (List.take_sublist 30 _) hp
    exact hp2.imp (fun h => by simpa using h)
  · intro e he
    unfold find_duplications at he
    have h2 := (List.take_sublist 30 _).subset he
    exact mem_pySorted.mp h2
  · intro hle e
    unfold find_duplications
    rw [List.take_of_length_le (by rw [length_pySorted]; exact hle)]
    exact mem_pySorted

/-- C9, witness: completeness below the cap applied to the concrete
three-file corpus and its single cluster. -/
theorem c9_truncation_inside_core_witness :
    (⟨vHdr, ["a.dart", "b.dart", "c.dart"], 3⟩ : DupCluster) ∈ find_duplications vcorp3 ↔
      (⟨vHdr, ["a.dart", "b.dart", "c.dart"], 3⟩ : DupCluster) ∈ reportableClusters vcorp3 :=
  (c9_truncation_inside_core vcorp3).2.2.2 (by decide) _

end Prioris
